import Mathlib

/-
  Verification of the FBX importer core of vircadia/project-athena
  (libraries/fbx/src/FBXReader.cpp), against its specification.

  The development shallowly embeds the relevant routines of
  FBXReader.cpp: the multi-cluster skin-weight accumulation and
  16-bit normalization, the model-ordering traversal
  (getTopModelID / appendModelIDs and the surrounding passes of
  FBXReader::extractFBXGeometry), the free-lineage computation, the
  joint-name index map, and the Objects-node dispatch.  C++ floats
  and doubles are modelled as exact rationals, Qt strings as Lean
  strings, Qt containers as lists and functions (a QMultiMap is a
  function from key to its value list, most recently inserted value
  first), and unbounded C++ loops as fuelled recursion whose fuel
  arguments are instantiated with explicit bounds at the call sites.
-/

namespace FBX

/-! ## Skin-weight accumulation (FBXReader.cpp lines 1791-1881)

The multi-cluster branch keeps, for every deduplicated vertex, four
(clusterIndex, weightAccumulator) slots.  The flat C++ arrays
`clusterIndices` / `weightAccumulators` (indexed `newIndex * 4 + k`)
are modelled as a function from vertex index to its list of four
slots. -/

/-- One scan of the four slots of a vertex, mirroring the loop
`for (; k < WEIGHTS_PER_VERTEX; k++)` at lines 1842-1852: it stops at
the first slot whose accumulated weight is `0.0f` (returning its
position on the left) and otherwise tracks the first strictly lowest
slot seen so far (`lowestIndex` / `lowestWeight`).  The C++ initial
`lowestWeight = FLT_MAX` sentinel is modelled by `none` (every weight
a float can accumulate is below `FLT_MAX`, so the first non-empty
slot always replaces the sentinel, exactly as in the source). -/
def slotScan : List (Nat × ℚ) → Nat → Option (Nat × ℚ) → Option Nat × Option (Nat × ℚ)
  | [], _, best => (none, best)
  | p :: rest, k, best =>
      if p.2 = 0 then (some k, best)
      else
        slotScan rest (k + 1)
          (match best with
           | none => some (k, p.2)
           | some b => if p.2 < b.2 then some (k, p.2) else some b)

/-- Insertion of one (clusterIndex `i`, weight `w`) influence into the
four slots of a vertex, mirroring FBXReader.cpp lines 1837-1857: fill
the first empty slot if one exists, otherwise replace the lowest slot
when `weight > lowestWeight`. -/
def insertWeight (slots : List (Nat × ℚ)) (i : Nat) (w : ℚ) : List (Nat × ℚ) :=
  match slotScan slots 0 none with
  | (some k, _) => slots.set k (i, w)
  | (none, some low) => if low.2 < w then slots.set low.1 (i, w) else slots
  | (none, none) => slots

/-- Per-vertex slot state; `clusterIndices.fill(0, ...)` and
`weightAccumulators.fill(0.0f, ...)` initialise every slot to `(0, 0)`
(lines 1794-1797). -/
def initSlots : Nat → List (Nat × ℚ) := fun _ => List.replicate 4 (0, 0)

/-- The stream of single-vertex insertions produced by the nested
loops of lines 1799-1859: for each cluster `i` (in order), for each
(oldIndex, weight) pair of that cluster, for each deduplicated new
index produced by `extracted.newIndices` for that old index, one entry
`(newIndex, i, weight)`. -/
def fanOut (newIndices : Nat → List Nat) (clusterEntries : List (List (Nat × ℚ))) :
    List (Nat × Nat × ℚ) :=
  clusterEntries.enum.flatMap fun ic =>
    ic.2.flatMap fun ow => (newIndices ow.1).map fun v => (v, ic.1, ow.2)

/-- Accumulation of all cluster weights of a mesh: fold the fanned-out
insertion stream over the per-vertex slot state. -/
def accumulateWeights (newIndices : Nat → List Nat)
    (clusterEntries : List (List (Nat × ℚ))) : Nat → List (Nat × ℚ) :=
  (fanOut newIndices clusterEntries).foldl
    (fun st e => Function.update st e.1 (insertWeight (st e.1) e.2.1 e.2.2))
    initSlots

/-- The (clusterIndex, weight) pairs that reach vertex `v` through the
deduplication map, in encounter order. -/
def vertexInsertionStream (newIndices : Nat → List Nat)
    (clusterEntries : List (List (Nat × ℚ))) (v : Nat) : List (Nat × ℚ) :=
  (fanOut newIndices clusterEntries).filterMap fun e =>
    if e.1 = v then some e.2 else none

/-- The multiset of the four accumulated weights of a slot list. -/
def slotWeights (slots : List (Nat × ℚ)) : Multiset ℚ :=
  (slots.map Prod.snd : List ℚ)

/-- Folding a list of single-vertex insertions over a slot state. -/
def applyInsertions (l : List (Nat × ℚ)) (slots : List (Nat × ℚ)) : List (Nat × ℚ) :=
  l.foldl (fun s p => insertWeight s p.1 p.2) slots

/-- Normalization of the four accumulated weights of one vertex to
16-bit fixed point, mirroring FBXReader.cpp lines 1862-1881: when the
total accumulated weight is positive each slot stores
`(uint16_t)(UINT16_MAX / totalWeight * w + ALMOST_HALF)` with
`ALMOST_HALF = 0.499f`; the float-to-unsigned conversion truncates,
which for the nonnegative values arising here is the floor.  When the
total is not positive the `clusterWeights.fill(0, ...)` value 0 is
left in place. -/
def normalizeClusterWeights (acc : List ℚ) : List Nat :=
  let totalWeight := acc.sum
  if 0 < totalWeight then
    acc.map fun w => (⌊(65535 : ℚ) / totalWeight * w + 499 / 1000⌋).toNat
  else
    acc.map fun _ => 0

/-- Selection predicate for claim C8: `sel` consists of the four
largest elements (with multiplicity) of the pool `pool`. -/
def IsTopFour (pool sel : Multiset ℚ) : Prop :=
  sel ≤ pool ∧ Multiset.card sel = 4 ∧ ∀ x ∈ pool - sel, ∀ y ∈ sel, x ≤ y

/-! ## Model-ordering traversal (FBXReader.cpp lines 331-347, 505-527,
1461-1499)

Object identifiers are strings; `QMultiMap<QString, QString>` maps
(`_connectionParentMap`, `_connectionChildMap`) are modelled as
functions from a key to the list of its values, most recently
inserted first, which is the order `QMultiMap::values` iterates and
the value `QMultiMap::value` returns.  The null `QString()` default
is the empty string (Qt compares null and empty QStrings equal). -/

/-- State mutated by `appendModelIDs` and the ordering loop:
`models[_].parentIndex` for every model id, the `remainingModels`
set (as a duplicate-free list), and the output `modelIDs` vector. -/
structure OrdState where
  parentIdx : String → Int
  remaining : List String
  modelIDs : List String

/-- Embedding of `getTopModelID` (FBXReader.cpp lines 505-527): walk
up the parent connection map from `topID`, skipping already-visited
nodes (the cycle guard) and non-model parents, until no unvisited
model parent remains.  The C++ `forever` loop runs at most
`models.size() + 1` iterations (every accepted parent is a model not
yet visited), so callers pass fuel `modelKeys.length + 1`. -/
def getTopModelID (parentMap : String → List String) (modelKeys : List String) :
    Nat → List String → String → String
  | 0, _, topID => topID
  | fuel + 1, visited, topID =>
      let visited2 := visited ++ [topID]
      match (parentMap topID).find? (fun p => !(visited2.contains p) && modelKeys.contains p) with
      | some p => getTopModelID parentMap modelKeys fuel visited2 p
      | none => topID

/-- Embedding of `appendModelIDs` (FBXReader.cpp lines 331-347): if
`parentID` is still remaining, append it to the output and remove it;
then give every remaining child with an unset parent index the index
of the position `parentID` was just placed at (or -1 at the root
level) and recurse into it.  The C++ recursion depth is bounded by
one more than the number of remaining models (every recursive call
immediately removes its argument from the remaining set), so callers
pass fuel `remaining.length + 1`. -/
def appendModelIDs (childMap : String → List String) :
    Nat → String → Bool → OrdState → OrdState
  | 0, _, _, st => st
  | fuel + 1, parentID, isRootNode, st =>
      let st1 :=
        if st.remaining.contains parentID then
          { st with
            modelIDs := st.modelIDs ++ [parentID],
            remaining := st.remaining.erase parentID }
        else st
      let parentIndex : Int := if isRootNode then -1 else (st1.modelIDs.length : Int) - 1
      (childMap parentID).foldl
        (fun s childID =>
          if s.remaining.contains childID ∧ s.parentIdx childID = -1 then
            appendModelIDs childMap fuel childID false
              { s with parentIdx := Function.update s.parentIdx childID parentIndex }
          else s)
        st1

/-- The lexicographic minimum scan `foreach (id, remainingModels) if
(id < first) first = id` of FBXReader.cpp lines 1491-1496. -/
def smallestID (l : List String) (first : String) : String :=
  l.foldl (fun f id => if id < f then id else f) first

/-- Embedding of the ordering loop `while (!remainingModels.isEmpty())`
of FBXReader.cpp lines 1490-1499.  Each iteration removes at least the
chosen smallest id (proved below), so the loop runs at most as many
iterations as there are models; the fuel is instantiated accordingly. -/
def orderLoop (childMap parentMap : String → List String) (modelKeys : List String) :
    Nat → OrdState → OrdState
  | 0, st => st
  | fuel + 1, st =>
      match st.remaining with
      | [] => st
      | f :: rest =>
          let first := smallestID (f :: rest) f
          let topID := getTopModelID parentMap modelKeys (modelKeys.length + 1) [] first
          let st2 := appendModelIDs childMap (st.remaining.length + 1)
              ((parentMap topID).headD "") true st
          orderLoop childMap parentMap modelKeys fuel st2

/-- The connection maps and the `remainingModels` set built by the
pre-ordering pass. -/
structure ConnState where
  parentMap : String → List String
  childMap : String → List String
  remaining : List String

/-- One iteration of the pre-ordering pass over `models` (FBXReader.cpp
lines 1464-1489) for model id `m`:

* `isARootNode` tests whether the model's parent is contained in the
  `modelIDs` vector (which the caller passes; at this program point it
  is still empty);
* if the model is not a root, the first deformer-cluster descendant
  found through the child map reparents the model to the cluster's
  topmost ancestor model (`_connectionChildMap.remove` drops all
  edges `oldParent -> m`, `_connectionParentMap.take` pops the most
  recent parent, `insert` pushes the new one);
* the model's parent edge is ensured to be present in the child map;
* the model id is added to `remainingModels`. -/
def prePassStep (modelIDs modelKeys clusterKeys : List String) (st : ConnState)
    (m : String) : ConnState :=
  let isARootNode := !(modelIDs.contains ((st.parentMap m).headD ""))
  let st1 :=
    if !isARootNode then
      match ((st.childMap m).flatMap fun d => st.childMap d).find?
          (fun c => clusterKeys.contains c) with
      | some clusterID =>
          let topID := getTopModelID st.parentMap modelKeys (modelKeys.length + 1) []
              ((st.childMap clusterID).headD "")
          let oldParent := (st.parentMap m).headD ""
          { st with
            parentMap :=
              Function.update st.parentMap m (topID :: (st.parentMap m).tail),
            childMap :=
              Function.update st.childMap oldParent
                ((st.childMap oldParent).filter fun v => v ≠ m) }
      | none => st
    else st
  let parent := (st1.parentMap m).headD ""
  let st2 :=
    if (st1.childMap parent).contains m then st1
    else { st1 with childMap := Function.update st1.childMap parent (m :: st1.childMap parent) }
  { st2 with remaining := st2.remaining ++ [m] }

/-- The pre-ordering pass: fold `prePassStep` over all model ids. -/
def prePass (modelIDs modelKeys clusterKeys : List String) (st : ConnState) : ConnState :=
  modelKeys.foldl (prePassStep modelIDs modelKeys clusterKeys) st

/-- The child-to-parent connection map built from the `Connections`
block: `_connectionParentMap.insert(childID, parentID)` for every
connection (FBXReader.cpp line 1411); insertion prepends to the value
list (most recent first). -/
def buildParentMap (connections : List (String × String)) : String → List String :=
  connections.foldl
    (fun pm cp => Function.update pm cp.1 (cp.2 :: pm cp.1))
    (fun _ => [])

/-- The parent-to-child connection map
(`_connectionChildMap.insert(parentID, childID)`, line 1412). -/
def buildChildMap (connections : List (String × String)) : String → List String :=
  connections.foldl
    (fun cm cp => Function.update cm cp.2 (cp.1 :: cm cp.2))
    (fun _ => [])

/-- The complete model-ordering computation of
`FBXReader::extractFBXGeometry` (lines 1461-1499): build the
connection maps from the `Connections` block, run the pre-ordering
pass (with the still-empty `modelIDs` vector), then run the ordering
loop.  All model parent indices start at -1 (`FBXModel` construction,
line 817). -/
def modelOrderPipeline (connections : List (String × String))
    (modelKeys clusterKeys : List String) : OrdState :=
  let pre := prePass [] modelKeys clusterKeys
    ⟨buildParentMap connections, buildChildMap connections, []⟩
  orderLoop pre.childMap pre.parentMap modelKeys modelKeys.length
    ⟨fun _ => -1, pre.remaining, []⟩

/-- The `QVector<QString>::indexOf` scan used to resolve joint ids
against the ordered model list (first index, or -1 if absent). -/
def qIndexOf : List String → String → Int
  | [], _ => -1
  | a :: rest, x =>
      if a = x then 0
      else
        let r := qIndexOf rest x
        if r = -1 then -1 else r + 1

/-! ## Mesh cluster binding (FBXReader.cpp lines 1732-1786) -/

/-- The joint ids of the clusters associated with a mesh: for each
child of the mesh id, for each grandchild that is a known cluster, the
cluster's first child (`_connectionChildMap.value(clusterID)`), in the
iteration order of lines 1734-1745. -/
def meshClusterJointIDs (childMap : String → List String) (clusterKeys : List String)
    (meshID : String) : List String :=
  (childMap meshID).flatMap fun childID =>
    (childMap childID).filterMap fun clusterID =>
      if clusterKeys.contains clusterID then some ((childMap clusterID).headD "") else none

/-- The `jointIndex` fields of the clusters attached to a mesh
(FBXReader.cpp lines 1739-1750 and the zero-cluster fallback of lines
1777-1786): resolve each cluster's joint id in the ordered model list
(0 if unresolved), and when no cluster was found attach one rigid
cluster bound to the owning model's own resolved index (0 if
unresolved). -/
def buildMeshClusters (childMap : String → List String) (clusterKeys modelIDs : List String)
    (meshID modelID : String) : List Int :=
  let jointIDs := meshClusterJointIDs childMap clusterKeys meshID
  let cl := jointIDs.map fun jid =>
    let idx := qIndexOf modelIDs jid
    if idx = -1 then 0 else idx
  if cl.isEmpty then
    [let idx := qIndexOf modelIDs modelID
     if idx = -1 then 0 else idx]
  else cl

/-! ## Free-lineage computation (FBXReader.cpp lines 1513-1532) -/

/-- The two joint fields the free-lineage walk reads. -/
structure JointE where
  parentIndex : Int
  isFree : Bool

/-- The ancestor walk of FBXReader.cpp lines 1525-1531: starting at
the new joint's `parentIndex`, follow parent indices until -1,
appending each visited index to `freeLineage` and recording in
`lastFree` the `freeLineage` position at which the most recent free
joint was about to be appended.  Under the depth-first parent-index
invariant the walk visits strictly decreasing indices, so fuel
`joints.length + 1` never runs out. -/
def lineageWalk (joints : List JointE) : Nat → Int → List Int → Int → List Int × Int
  | 0, _, acc, lastFree => (acc, lastFree)
  | fuel + 1, index, acc, lastFree =>
      if index = -1 then (acc, lastFree)
      else
        let j := joints.getD index.toNat ⟨-1, false⟩
        let lastFree2 := if j.isFree then (acc.length : Int) else lastFree
        lineageWalk joints fuel j.parentIndex (acc ++ [index]) lastFree2

/-- The free-lineage computation for the joint being appended at
position `joints.length` (FBXReader.cpp lines 1522-1532):
`freeLineage` starts as `[jointIndex]`, `lastFreeIndex` as 0 when the
joint itself is free and -1 otherwise; after the ancestor walk,
`freeLineage.remove(lastFreeIndex + 1, size - lastFreeIndex - 1)`
keeps the first `lastFreeIndex + 1` entries. -/
def computeFreeLineage (joints : List JointE) (isFree : Bool) (parentIndex : Int) :
    List Int :=
  let jointIndex : Int := (joints.length : Int)
  let res := lineageWalk joints (joints.length + 1) parentIndex [jointIndex]
    (if isFree then 0 else -1)
  res.1.take (res.2 + 1).toNat

/-- Specification-side plain ancestor chain: the indices visited by
the walk, without the free-joint bookkeeping. -/
def ancChain (joints : List JointE) : Nat → Int → List Int
  | 0, _ => []
  | fuel + 1, index =>
      if index = -1 then []
      else index :: ancChain joints fuel (joints.getD index.toNat ⟨-1, false⟩).parentIndex

/-- Length of the prefix of a flag list that ends at its last `true`
(0 when no flag is set): the number of chain entries kept when the
chain is truncated immediately after its last free member. -/
def keepLen : List Bool → Nat
  | [] => 0
  | b :: rest =>
      let r := keepLen rest
      if r = 0 then (if b then 1 else 0) else r + 1

/-- Free flag of a chain entry: the entry `joints.length` denotes the
joint currently being appended (whose freeness is `selfIsFree`), any
other entry is an existing joint. -/
def freeFlagAt (joints : List JointE) (selfIsFree : Bool) (e : Int) : Bool :=
  if e = (joints.length : Int) then selfIsFree else (joints.getD e.toNat ⟨-1, false⟩).isFree

/-- Specification-side accumulator for `lastFreeIndex`: fold the free
flags of the walked chain in order, recording the chain position
(counted from `base`) of the most recent set flag. -/
def lastFreeVal : Nat → Int → List Bool → Int
  | _, lastFree, [] => lastFree
  | base, lastFree, b :: rest =>
      lastFreeVal (base + 1) (if b then (base : Int) else lastFree) rest

/-! ## Joint-name index map (FBXReader.cpp lines 1576-1577) -/

/-- The `geometry.jointIndices` table: after appending the joint for
the i-th ordered model, `insert(model.name, geometry.joints.size())`
stores `i + 1` under the model's name, overwriting any earlier entry
with the same name (QHash::insert semantics). -/
def buildJointIndices (names : List String) : String → Option Nat :=
  names.enum.foldl
    (fun m p => Function.update m p.2 (some (p.1 + 1)))
    (fun _ => none)

/-! ## Scene-node dispatch (FBXReader.cpp lines 702-1435)

A property value is a string or a number; `QVariantList::at` and
`QVariantList::last` demand a valid index (out-of-range access is an
assertion failure / undefined behaviour in Qt), so the embedding
returns an error for them.  The dispatch models every recognized
top-level branch (`FBXHeaderExtension`, `GlobalSettings`, `Objects`,
`Connections`) and every recognized `Objects` category (`Geometry`,
`Model`, `Texture`, `Video`, `Material`, `NodeAttribute`, `Deformer`,
`AnimationCurve`), in source order, with the property reads each
branch performs before and around its payload extraction; the payload
extraction itself (mesh geometry, material colors, texture params,
animation vectors, the per-subobject reads of the `Model` branch at
lines 760-985) is outside the fragment — its reads could only add
further abort paths.  Unrecognized node names fall through silently,
as in the source. -/

inductive PropE where
  | str (s : String)
  | num (n : Int)
deriving DecidableEq

/-- QVariant::toString for the modelled property values. -/
def propToString : PropE → String
  | .str s => s
  | .num n => toString n

/-- The `processID` helper (FBXReader.cpp lines 205-208): strip
everything up to the last colon. -/
def processID (id : String) : String :=
  (id.splitOn ":").getLastD id

/-- The `getName` helper (FBXReader.cpp lines 210-219): with exactly
three properties the name is property 1 up to the first NUL byte,
otherwise property 0; both are then passed through `processID`. -/
def getNameE (properties : List PropE) : Except String String :=
  if properties.length = 3 then
    match properties[1]? with
    | some p => .ok (processID ((propToString p).takeWhile fun c => c ≠ Char.ofNat 0))
    | none => .error "property index out of range"
  else
    match properties[0]? with
    | some p => .ok (processID (propToString p))
    | none => .error "property index out of range"

/-- Access to property i as `QVariantList::at(i)` performs it:
out-of-range access is not a value. -/
def qAt (props : List PropE) (i : Nat) : Except String PropE :=
  match props[i]? with
  | some v => .ok v
  | none => .error "property index out of range"

/-- Access to the last property as `QVariantList::last()` performs it
(FBXReader.cpp line 1285): the last element of an empty list is not a
value. -/
def lastE (props : List PropE) : Except String PropE :=
  match props.getLast? with
  | some v => .ok v
  | none => .error "last of empty property list"

/-- A parsed FBX node. -/
inductive FBXNodeE where
  | mk (name : String) (properties : List PropE) (children : List FBXNodeE)

def FBXNodeE.name : FBXNodeE → String
  | .mk n _ _ => n

def FBXNodeE.properties : FBXNodeE → List PropE
  | .mk _ p _ => p

def FBXNodeE.children : FBXNodeE → List FBXNodeE
  | .mk _ _ c => c

/-- Head-property read of every child named `nm`: the
`subobject.properties.at(0)` reads of the `Material` branch's
`ShadingModel` children (FBXReader.cpp line 1121) and the
`NodeAttribute` branch's `TypeFlags` children (lines 1272-1274). -/
def readSubHeads (children : List FBXNodeE) (nm : String) : Except String Unit :=
  children.foldlM
    (fun _ sub =>
      if sub.name = nm then do
        let _ ← qAt sub.properties 0
        .ok ()
      else .ok ())
    ()

/-- Property reads of the `Texture` branch (FBXReader.cpp lines
987-1088): a `RelativeFilename` or `TextureName` subobject with at
least one property reads its head and then `getID(object.properties)`
= at(0) on the texture object itself; the remaining subobject reads
are length-guarded in the source (the `Properties70` scaling path,
which can also reach the final length-unguarded `getID` through
`tex.isDefault`, is a further abort path outside the fragment). -/
def textureReads (objProps : List PropE) (children : List FBXNodeE) : Except String Unit :=
  children.foldlM
    (fun _ sub =>
      if (sub.name = "RelativeFilename" ∨ sub.name = "TextureName")
          ∧ 1 ≤ sub.properties.length then do
        let _ ← qAt sub.properties 0
        let _ ← qAt objProps 0
        .ok ()
      else .ok ())
    ()

/-- Property reads of the `Video` branch (FBXReader.cpp lines
1088-1102): a `RelativeFilename` subobject's head property is read
with no length guard; the `Content` read is guarded by `isEmpty`. -/
def videoReads (children : List FBXNodeE) : Except String Unit :=
  children.foldlM
    (fun _ sub =>
      if sub.name = "RelativeFilename" then do
        let _ ← qAt sub.properties 0
        .ok ()
      else .ok ())
    ()

/-- Property reads of the `GlobalSettings` branch (FBXReader.cpp lines
726-745): every `P` subobject of a `Properties70` child has its head
property read unguarded; a `UnitScaleFactor` head reads property 4, an
`AmbientColor` head reads properties 4, 5 and 6 via `getVec3`. -/
def globalSettingsReads (objects : List FBXNodeE) : Except String Unit :=
  objects.foldlM
    (fun _ object =>
      if object.name = "Properties70" then
        object.children.foldlM
          (fun _ sub =>
            if sub.name = "P" then do
              let p0 ← qAt sub.properties 0
              if p0 = PropE.str "UnitScaleFactor" then do
                let _ ← qAt sub.properties 4
                .ok ()
              else if p0 = PropE.str "AmbientColor" then do
                let _ ← qAt sub.properties 4
                let _ ← qAt sub.properties 5
                let _ ← qAt sub.properties 6
                .ok ()
              else .ok ()
            else .ok ())
          ()
      else .ok ())
    ()

/-- Property reads of the `FBXHeaderExtension` branch (FBXReader.cpp
lines 704-725): an `Author` node under `SceneInfo`/`MetaData` has its
head property read unguarded (line 711); the `Properties70`/`P`
application-name reads at positions 0 and 4 are guarded by
`size() >= 5` and so cannot fail. -/
def headerReads (objects : List FBXNodeE) : Except String Unit :=
  objects.foldlM
    (fun _ object =>
      if object.name = "SceneInfo" then
        object.children.foldlM
          (fun _ sub =>
            if sub.name = "MetaData" then
              sub.children.foldlM
                (fun _ subsub =>
                  if subsub.name = "Author" then do
                    let _ ← qAt subsub.properties 0
                    .ok ()
                  else .ok ())
                ()
            else if sub.name = "Properties70" then
              sub.children.foldlM
                (fun _ subsub =>
                  if subsub.name = "P" ∧ 5 ≤ subsub.properties.length then do
                    let p0 ← qAt subsub.properties 0
                    if p0 = PropE.str "Original|ApplicationName" then do
                      let _ ← qAt subsub.properties 4
                      .ok ()
                    else .ok ()
                  else .ok ())
                ()
            else .ok ())
          ()
      else .ok ())
    ()

/-- Property reads of the `Connections` branch (FBXReader.cpp lines
1338-1415): every `C` or `Connect` child reads property 0 unguarded
(line 1343); an `OP` connection additionally reads property 3 (line
1359); every connection then reads properties 1 and 2 for the
parent/child maps (lines 1411-1412), which subsumes the `OO` branch's
`getID` reads at the same positions. -/
def connectionsReads (connections : List FBXNodeE) : Except String Unit :=
  connections.foldlM
    (fun _ connection =>
      if connection.name = "C" ∨ connection.name = "Connect" then do
        let p0 ← qAt connection.properties 0
        let _ ← if p0 = PropE.str "OP" then do
            let _ ← qAt connection.properties 3
            (.ok () : Except String Unit)
          else .ok ()
        let _ ← qAt connection.properties 1
        let _ ← qAt connection.properties 2
        .ok ()
      else .ok ())
    ()

/-- The object tables collected from the `Objects` block that this
fragment models: mesh ids, blendshape ids, (model id, model name)
pairs, and the ids registered by the remaining recognized categories
(Material, NodeAttribute, Deformer, AnimationCurve). -/
structure ObjectsAcc where
  meshIDs : List String
  blendshapeIDs : List String
  modelEntries : List (String × String)
  otherIDs : List String
deriving DecidableEq

def emptyObjectsAcc : ObjectsAcc := ⟨[], [], [], []⟩

/-- Dispatch of one child of the `Objects` node (FBXReader.cpp lines
746-1324), with each recognized category's property reads in source
order: `Geometry` reads property 2 to distinguish meshes (`"Mesh"`)
from blendshapes and registers its id (property 0, via `getID` inside
`extractMesh`/`extractBlendshape`); `Model` reads its name and id;
`Texture` and `Video` perform their subobject-triggered reads;
`Material` reads property 1 (line 1106), its `ShadingModel`
subobject heads, and its id (line 1257); `NodeAttribute` reads its id
(line 1268) and its `TypeFlags` subobject heads; `Deformer` reads its
LAST property (line 1285) and then, for a `Cluster`, its id, or, for
a `BlendShapeChannel`, property 1 and its id; `AnimationCurve` reads
its id (line 1323).  Any other object name is ignored.  Every indexed
read uses `at`/`last`, which fail on a too-short property list; the
category payloads (mesh data, material colors, animation vectors, the
`Model` subobject reads of lines 760-985) are outside the fragment. -/
def objectsStep (acc : ObjectsAcc) (object : FBXNodeE) : Except String ObjectsAcc :=
  if object.name = "Geometry" then do
    let p2 ← qAt object.properties 2
    let p0 ← qAt object.properties 0
    if p2 = PropE.str "Mesh" then
      .ok { acc with meshIDs := acc.meshIDs ++ [processID (propToString p0)] }
    else
      .ok { acc with blendshapeIDs := acc.blendshapeIDs ++ [processID (propToString p0)] }
  else if object.name = "Model" then do
    let name ← getNameE object.properties
    let p0 ← qAt object.properties 0
    .ok { acc with modelEntries := acc.modelEntries ++ [(processID (propToString p0), name)] }
  else if object.name = "Texture" then do
    let _ ← textureReads object.properties object.children
    .ok acc
  else if object.name = "Video" then do
    let _ ← videoReads object.children
    .ok acc
  else if object.name = "Material" then do
    let _ ← qAt object.properties 1
    let _ ← readSubHeads object.children "ShadingModel"
    let p0 ← qAt object.properties 0
    .ok { acc with otherIDs := acc.otherIDs ++ [processID (propToString p0)] }
  else if object.name = "NodeAttribute" then do
    let p0 ← qAt object.properties 0
    let _ ← readSubHeads object.children "TypeFlags"
    .ok { acc with otherIDs := acc.otherIDs ++ [processID (propToString p0)] }
  else if object.name = "Deformer" then do
    let pl ← lastE object.properties
    if pl = PropE.str "Cluster" then do
      let p0 ← qAt object.properties 0
      .ok { acc with otherIDs := acc.otherIDs ++ [processID (propToString p0)] }
    else if pl = PropE.str "BlendShapeChannel" then do
      let _ ← qAt object.properties 1
      let p0 ← qAt object.properties 0
      .ok { acc with otherIDs := acc.otherIDs ++ [processID (propToString p0)] }
    else
      .ok acc
  else if object.name = "AnimationCurve" then do
    let p0 ← qAt object.properties 0
    .ok { acc with otherIDs := acc.otherIDs ++ [processID (propToString p0)] }
  else
    .ok acc

/-- Fold of `objectsStep` over the children of an `Objects` node. -/
def objectsDispatch (objects : List FBXNodeE) : Except String ObjectsAcc :=
  objects.foldlM objectsStep emptyObjectsAcc

/-- The top-level dispatch over the root node's children
(FBXReader.cpp lines 702-1435), with the four recognized branches in
source order: `FBXHeaderExtension`, `GlobalSettings`, `Objects` and
`Connections` each perform their branch's property reads; every other
node name falls through silently. -/
def sceneDispatch (root : FBXNodeE) : Except String ObjectsAcc :=
  root.children.foldlM
    (fun acc child =>
      if child.name = "FBXHeaderExtension" then do
        let _ ← headerReads child.children
        .ok acc
      else if child.name = "GlobalSettings" then do
        let _ ← globalSettingsReads child.children
        .ok acc
      else if child.name = "Objects" then
        child.children.foldlM objectsStep acc
      else if child.name = "Connections" then do
        let _ ← connectionsReads child.children
        .ok acc
      else
        .ok acc)
    emptyObjectsAcc

/-! ## Invariants used in the ordering proofs -/

/-- Invariant of the ordering state behind the depth-first property
(claim C1): every parent index lies in the interval from -1 up to
(excluding) the number of placed models, every placed position i
holds a parent index smaller than i, remaining ids are not yet
placed, and the remaining list is duplicate-free. -/
def OrderInv (st : OrdState) : Prop :=
  (∀ id, -1 ≤ st.parentIdx id ∧ st.parentIdx id < (st.modelIDs.length : Int)) ∧
  (∀ i (h : i < st.modelIDs.length),
      -1 ≤ st.parentIdx st.modelIDs[i] ∧ st.parentIdx st.modelIDs[i] < (i : Int)) ∧
  (∀ id ∈ st.remaining, id ∉ st.modelIDs) ∧
  st.remaining.Nodup

/-- Extension relation between ordering states: the placed list only
grows at the end and the remaining set only shrinks. -/
def OrdExt (st st2 : OrdState) : Prop :=
  (∃ t, st2.modelIDs = st.modelIDs ++ t) ∧ ∀ id ∈ st2.remaining, id ∈ st.remaining

/-- Remaining models still carry the initial parent index -1. -/
def RemainingUnset (st : OrdState) : Prop :=
  ∀ id ∈ st.remaining, st.parentIdx id = -1

/-- Every placed model has all of its child-map children placed or
discarded, never still remaining. -/
def ChildrenPlaced (childMap : String → List String) (st : OrdState) : Prop :=
  ∀ m ∈ st.modelIDs, ∀ c ∈ childMap m, c ∉ st.remaining

/-- The child map contains the reverse of every parent-map edge. -/
def SymMaps (pm cm : String → List String) : Prop :=
  ∀ a b, b ∈ pm a → a ∈ cm b

/-- One step of the upward walk of `getTopModelID`: y is a parent of x
that is itself a model. -/
def ParentStep (pm : String → List String) (modelKeys : List String)
    (x y : String) : Prop :=
  y ∈ pm x ∧ y ∈ modelKeys

/-- Facts established by one completed `appendModelIDs` call with
sufficient fuel, used for the cycle-safety and completeness claim:
the call moves ids from `remaining` to `modelIDs` (mass
preservation), leaves every remaining id with parent index -1, keeps
`remaining` duplicate-free, only shrinks it, only grows the placed
list, leaves no child of the call argument remaining, removes the
call argument itself, and leaves no child of any newly placed model
remaining. -/
structure AppendRun (childMap : String → List String) (pid : String)
    (st r : OrdState) : Prop where
  mass : (r.modelIDs : Multiset String) + (r.remaining : Multiset String)
      = (st.modelIDs : Multiset String) + (st.remaining : Multiset String)
  unset : RemainingUnset r
  nodup : r.remaining.Nodup
  shrink : r.remaining.Sublist st.remaining
  placedMono : ∀ x ∈ st.modelIDs, x ∈ r.modelIDs
  childrenOut : ∀ c ∈ childMap pid, c ∉ r.remaining
  pidOut : pid ∉ r.remaining
  newPlaced : ∀ m ∈ r.modelIDs, m ∉ st.modelIDs → ∀ c ∈ childMap m, c ∉ r.remaining

/-! ## Helper lemmas: skin-weight accumulation -/

lemma slotScan_nil (k : Nat) (best : Option (Nat × ℚ)) : slotScan [] k best = (none, best) := rfl

lemma slotScan_cons (p : Nat × ℚ) (rest : List (Nat × ℚ)) (k : Nat) (best : Option (Nat × ℚ)) :
    slotScan (p :: rest) k best =
      if p.2 = 0 then (some k, best)
      else
        slotScan rest (k + 1)
          (match best with
           | none => some (k, p.2)
           | some b => if p.2 < b.2 then some (k, p.2) else some b) := rfl

lemma slotScan_ne_nn (l : List (Nat × ℚ)) :
    ∀ (k : Nat) (best : Option (Nat × ℚ)), (l ≠ [] ∨ best ≠ none) →
      slotScan l k best ≠ (none, none) := by
  induction l with
  | nil =>
      intro k best h hcon
      rcases h with h | h
      · exact h rfl
      · exact h (congrArg Prod.snd hcon)
  | cons p rest ih =>
      intro k best _ hcon
      rw [slotScan_cons] at hcon
      by_cases hz : p.2 = 0
      · rw [if_pos hz] at hcon; cases hcon
      · rw [if_neg hz] at hcon
        refine ih (k + 1) _ (Or.inr ?_) hcon
        cases best <;> simp <;> split <;> simp

lemma map_snd_set (slots : List (Nat × ℚ)) (k : Nat) (i : Nat) (w : ℚ) :
    (slots.set k (i, w)).map Prod.snd = (slots.map Prod.snd).set k w := by
  induction slots generalizing k with
  | nil => rfl
  | cons p rest ih =>
      cases k with
      | zero => rfl
      | succ k => simpa [List.set] using ih k

lemma getD_map_snd (slots : List (Nat × ℚ)) (k : Nat) (hk : k < slots.length) :
    (slots.map Prod.snd).getD k 0 = (slots.getD k (0, 0)).2 := by
  rw [List.getD_eq_getElem _ _ (by simpa using hk), List.getD_eq_getElem _ _ hk]
  simp

lemma multiset_set (l : List ℚ) (k : Nat) (a : ℚ) (hk : k < l.length) :
    ((l.set k a : List ℚ) : Multiset ℚ) = a ::ₘ ((l : Multiset ℚ).erase (l.getD k 0)) := by
  induction l generalizing k with
  | nil => simp at hk
  | cons x rest ih =>
      cases k with
      | zero => simp [List.set, Multiset.erase_cons_head]
      | succ k =>
          have hk2 : k < rest.length := by simpa using hk
          have hmem : rest.getD k 0 ∈ rest := by
            rw [List.getD_eq_getElem rest 0 hk2]
            exact List.getElem_mem hk2
          simp only [List.set, List.getD_cons_succ, ← Multiset.cons_coe]
          rw [ih k hk2]
          by_cases hx : rest.getD k 0 = x
          · rw [Multiset.cons_swap, hx, Multiset.erase_cons_head,
              Multiset.cons_erase (hx ▸ hmem)]
          · rw [Multiset.erase_cons_tail _ (fun h => hx h.symm), Multiset.cons_swap]

lemma slotWeights_set (slots : List (Nat × ℚ)) (k i : Nat) (w : ℚ) (hk : k < slots.length) :
    slotWeights (slots.set k (i, w)) =
      w ::ₘ (slotWeights slots).erase ((slots.getD k (0, 0)).2) := by
  rw [slotWeights, map_snd_set, multiset_set _ _ _ (by simpa using hk), getD_map_snd _ _ hk]
  rfl

lemma mem_slotWeights_of_getD (slots : List (Nat × ℚ)) (k : Nat) (hk : k < slots.length) :
    (slots.getD k (0, 0)).2 ∈ slotWeights slots := by
  rw [slotWeights, ← getD_map_snd _ _ hk]
  have hk2 : k < (slots.map Prod.snd).length := by simpa using hk
  rw [List.getD_eq_getElem _ _ hk2]
  exact Multiset.mem_coe.mpr (List.getElem_mem hk2)

lemma slotScan_fill (l : List (Nat × ℚ)) :
    ∀ (k : Nat) (best : Option (Nat × ℚ)) (j : Nat) (b : Option (Nat × ℚ)),
      slotScan l k best = (some j, b) →
      ∃ idx, idx < l.length ∧ j = k + idx ∧ (l.getD idx (0, 0)).2 = 0 := by
  induction l with
  | nil => intro k best j b h; simp [slotScan_nil] at h
  | cons p rest ih =>
      intro k best j b h
      rw [slotScan_cons] at h
      by_cases hz : p.2 = 0
      · simp [hz] at h
        exact ⟨0, by simp, by omega, by simpa using hz⟩
      · simp only [if_neg hz] at h
        obtain ⟨idx, hlt, hj, hval⟩ := ih (k + 1) _ j b h
        exact ⟨idx + 1, by simp; omega, by omega, by simpa using hval⟩

lemma slotScan_low (l : List (Nat × ℚ)) :
    ∀ (k : Nat) (best : Option (Nat × ℚ)) (bm : Nat × ℚ),
      slotScan l k best = (none, some bm) →
      (∀ p ∈ l, p.2 ≠ 0) ∧ (∀ p ∈ l, bm.2 ≤ p.2) ∧
      ((∃ idx, idx < l.length ∧ bm.1 = k + idx ∧ (l.getD idx (0, 0)).2 = bm.2) ∨ best = some bm) ∧
      (∀ b, best = some b → bm.2 ≤ b.2) := by
  induction l with
  | nil =>
      intro k best bm h
      rw [slotScan_nil] at h
      refine ⟨by simp, by simp, Or.inr ?_, fun b hb => ?_⟩
      · exact congrArg Prod.snd h
      · rw [hb] at h
        cases congrArg Prod.snd h
        rfl
  | cons p rest ih =>
      intro k best bm h
      rw [slotScan_cons] at h
      by_cases hz : p.2 = 0
      · simp [hz] at h
      · simp only [if_neg hz] at h
        obtain ⟨hnz, hmin, hsrc, hbest⟩ := ih (k + 1) _ bm h
        have hple : bm.2 ≤ p.2 := by
          cases hb : best with
          | none =>
              rw [hb] at hbest
              exact hbest (k, p.2) rfl
          | some b =>
              rw [hb] at hbest
              by_cases hlt : p.2 < b.2
              · exact hbest (k, p.2) (by simp [hlt])
              · have := hbest b (by simp [hlt])
                linarith [le_of_not_lt hlt]
        refine ⟨?_, ?_, ?_, ?_⟩
        · intro q hq; rcases List.mem_cons.mp hq with hq | hq
          · exact hq ▸ hz
          · exact hnz q hq
        · intro q hq; rcases List.mem_cons.mp hq with hq | hq
          · exact hq ▸ hple
          · exact hmin q hq
        · rcases hsrc with ⟨idx, hlt, hj, hval⟩ | hsame
          · exact Or.inl ⟨idx + 1, by simp; omega, by omega, by simpa using hval⟩
          · cases hb : best with
            | none =>
                rw [hb] at hsame
                have hbm : bm = (k, p.2) := (Option.some.inj hsame).symm
                subst hbm
                exact Or.inl ⟨0, by simp, by omega, by simp⟩
            | some b =>
                rw [hb] at hsame
                have hsame2 : (if p.2 < b.2 then some (k, p.2) else some b) = some bm := hsame
                by_cases hlt : p.2 < b.2
                · rw [if_pos hlt] at hsame2
                  have hbm : bm = (k, p.2) := (Option.some.inj hsame2).symm
                  subst hbm
                  exact Or.inl ⟨0, by simp, by omega, by simp⟩
                · rw [if_neg hlt] at hsame2
                  exact Or.inr hsame2
        · intro b hb
          subst hb
          by_cases hlt : p.2 < b.2
          · have := hbest (k, p.2) (by simp [hlt]); dsimp at this; linarith
          · exact hbest b (by simp [hlt])

lemma insertWeight_weights (slots : List (Nat × ℚ)) (i : Nat) (w : ℚ)
    (hne : slots ≠ []) (hnn : ∀ p ∈ slots, 0 ≤ p.2) (hw : 0 ≤ w) :
    ∃ m, m ∈ slotWeights slots ∧ (∀ y ∈ slotWeights slots, m ≤ y) ∧
      slotWeights (insertWeight slots i w) =
        (if m < w then w ::ₘ (slotWeights slots).erase m else slotWeights slots) := by
  rcases hscan : slotScan slots 0 none with ⟨fst, snd⟩
  cases fst with
  | some k =>
      have hiw : insertWeight slots i w = slots.set k (i, w) := by
        rw [insertWeight, hscan]
      rw [hiw]
      obtain ⟨idx, hlt, hj, hval⟩ := slotScan_fill slots 0 none k snd hscan
      have hk : k < slots.length := by omega
      have hkidx : k = idx := by omega
      subst hkidx
      refine ⟨0, ?_, ?_, ?_⟩
      · have := mem_slotWeights_of_getD slots k hk
        rwa [hval] at this
      · intro y hy
        rw [slotWeights, Multiset.mem_coe, List.mem_map] at hy
        obtain ⟨p, hp, rfl⟩ := hy
        exact hnn p hp
      · by_cases hwpos : (0 : ℚ) < w
        · rw [if_pos hwpos, slotWeights_set slots k i w hk, hval]
        · have hw0 : w = 0 := le_antisymm (not_lt.mp hwpos) hw
          rw [if_neg hwpos, slotWeights_set slots k i w hk, hval, hw0]
          exact Multiset.cons_erase (by
            have := mem_slotWeights_of_getD slots k hk
            rwa [hval] at this)
  | none =>
      cases snd with
      | none => exact absurd hscan (slotScan_ne_nn slots 0 none (Or.inl hne))
      | some low =>
          have hiw : insertWeight slots i w =
              (if low.2 < w then slots.set low.1 (i, w) else slots) := by
            rw [insertWeight, hscan]
          rw [hiw]
          obtain ⟨hnz, hmin, hsrc, -⟩ := slotScan_low slots 0 none low hscan
          rcases hsrc with ⟨idx, hlt, hj, hval⟩ | hcon
          · have hk : low.1 < slots.length := by omega
            have hkidx : low.1 = idx := by omega
            refine ⟨low.2, ?_, ?_, ?_⟩
            · have := mem_slotWeights_of_getD slots idx hlt
              rwa [hval] at this
            · intro y hy
              rw [slotWeights, Multiset.mem_coe, List.mem_map] at hy
              obtain ⟨p, hp, rfl⟩ := hy
              exact hmin p hp
            · by_cases hlw : low.2 < w
              · rw [if_pos hlw, if_pos hlw, slotWeights_set slots low.1 i w hk, hkidx, hval]
              · rw [if_neg hlw, if_neg hlw]
          · cases hcon

lemma sub_cons_of_le (pool sel : Multiset ℚ) (w m : ℚ) (hle : sel ≤ pool) (hm : m ∈ sel) :
    (w ::ₘ pool) - (w ::ₘ sel.erase m) = m ::ₘ (pool - sel) := by
  rw [← Multiset.singleton_add, ← Multiset.singleton_add w (sel.erase m),
    ← Multiset.sub_singleton, add_tsub_add_eq_tsub_left,
    tsub_tsub_assoc hle (Multiset.singleton_le.mpr hm), add_comm, Multiset.singleton_add]

lemma cons_sub_of_le (pool sel : Multiset ℚ) (w : ℚ) (hle : sel ≤ pool) :
    (w ::ₘ pool) - sel = w ::ₘ (pool - sel) := by
  rw [← Multiset.singleton_add, add_tsub_assoc_of_le hle, Multiset.singleton_add]

lemma topfour_step (pool : Multiset ℚ) (slots : List (Nat × ℚ)) (i : Nat) (w : ℚ)
    (htf : IsTopFour pool (slotWeights slots))
    (hnn : ∀ p ∈ slots, 0 ≤ p.2) (hw : 0 ≤ w) :
    IsTopFour (w ::ₘ pool) (slotWeights (insertWeight slots i w)) := by
  obtain ⟨hle, hcard, hcompl⟩ := htf
  have hne : slots ≠ [] := by
    intro h
    rw [h] at hcard
    simp [slotWeights] at hcard
  obtain ⟨m, hmem, hmin, heq⟩ := insertWeight_weights slots i w hne hnn hw
  rw [heq]
  by_cases hmw : m < w
  · rw [if_pos hmw]
    refine ⟨?_, ?_, ?_⟩
    · exact Multiset.cons_le_cons w (le_trans (Multiset.erase_le m _) hle)
    · rw [Multiset.card_cons, Multiset.card_erase_of_mem hmem, hcard]
      rfl
    · rw [sub_cons_of_le pool _ w m hle hmem]
      intro x hx y hy
      rcases Multiset.mem_cons.mp hx with hxm | hxp
      · subst hxm
        rcases Multiset.mem_cons.mp hy with hyw | hye
        · subst hyw; exact le_of_lt hmw
        · exact hmin y (Multiset.mem_of_mem_erase hye)
      · rcases Multiset.mem_cons.mp hy with hyw | hye
        · subst hyw
          exact le_trans (hcompl x hxp m hmem) (le_of_lt hmw)
        · exact hcompl x hxp y (Multiset.mem_of_mem_erase hye)
  · rw [if_neg hmw]
    refine ⟨le_trans hle (Multiset.le_cons_self pool w), hcard, ?_⟩
    rw [cons_sub_of_le pool _ w hle]
    intro x hx y hy
    rcases Multiset.mem_cons.mp hx with hxw | hxp
    · subst hxw
      exact le_trans (not_lt.mp hmw) (hmin y hy)
    · exact hcompl x hxp y hy

lemma insertWeight_length (slots : List (Nat × ℚ)) (i : Nat) (w : ℚ) :
    (insertWeight slots i w).length = slots.length := by
  rw [insertWeight]
  rcases slotScan slots 0 none with ⟨fst, snd⟩
  cases fst with
  | some k => simp
  | none =>
      cases snd with
      | none => rfl
      | some low =>
          dsimp only
          split_ifs <;> simp

lemma insertWeight_nonneg (slots : List (Nat × ℚ)) (i : Nat) (w : ℚ)
    (hnn : ∀ p ∈ slots, 0 ≤ p.2) (hw : 0 ≤ w) :
    ∀ p ∈ insertWeight slots i w, 0 ≤ p.2 := by
  rw [insertWeight]
  rcases slotScan slots 0 none with ⟨fst, snd⟩
  have hset : ∀ (k : Nat) (p : Nat × ℚ), p ∈ slots.set k (i, w) → 0 ≤ p.2 := by
    intro k p hp
    rcases List.mem_or_eq_of_mem_set hp with h | h
    · exact hnn p h
    · rw [h]; exact hw
  cases fst with
  | some k => exact hset k
  | none =>
      cases snd with
      | none => exact hnn
      | some low =>
          dsimp only
          split_ifs
          · exact hset low.1
          · exact hnn

lemma applyInsertions_topfour (l : List (Nat × ℚ)) :
    ∀ (pool : Multiset ℚ) (slots : List (Nat × ℚ)),
      IsTopFour pool (slotWeights slots) →
      (∀ p ∈ slots, 0 ≤ p.2) → (∀ p ∈ l, 0 ≤ p.2) →
      IsTopFour (pool + (l.map Prod.snd : List ℚ)) (slotWeights (applyInsertions l slots)) := by
  induction l with
  | nil => intro pool slots htf hnn _; simpa [applyInsertions] using htf
  | cons p rest ih =>
      intro pool slots htf hnn hl
      have hp : (0 : ℚ) ≤ p.2 := hl p (List.mem_cons_self p rest)
      have hstep := topfour_step pool slots p.1 p.2 htf hnn hp
      have hrec := ih (p.2 ::ₘ pool) (insertWeight slots p.1 p.2) hstep
        (insertWeight_nonneg slots p.1 p.2 hnn hp)
        (fun q hq => hl q (List.mem_cons_of_mem p hq))
      rw [applyInsertions, List.foldl_cons]
      rw [show (rest.foldl (fun s q => insertWeight s q.1 q.2) (insertWeight slots p.1 p.2))
          = applyInsertions rest (insertWeight slots p.1 p.2) from rfl]
      have hpool : pool + ((p :: rest).map Prod.snd : List ℚ)
          = (p.2 ::ₘ pool) + (rest.map Prod.snd : List ℚ) := by
        rw [List.map_cons, ← Multiset.cons_coe, Multiset.add_cons, Multiset.cons_add]
      rw [hpool]
      exact hrec

lemma initSlots_topfour (v : Nat) :
    IsTopFour (Multiset.replicate 4 0) (slotWeights (initSlots v)) := by
  have h : slotWeights (initSlots v) = Multiset.replicate 4 0 := by
    rw [slotWeights, initSlots, List.map_replicate, Multiset.coe_replicate]
  rw [IsTopFour, h]
  refine ⟨le_refl _, by simp, ?_⟩
  intro x hx
  rw [tsub_self] at hx
  exact absurd hx (Multiset.not_mem_zero x)

lemma foldl_update_proj (entries : List (Nat × Nat × ℚ)) :
    ∀ (st : Nat → List (Nat × ℚ)) (v : Nat),
      (entries.foldl (fun (acc : Nat → List (Nat × ℚ)) e => Function.update acc e.1 (insertWeight (acc e.1) e.2.1 e.2.2)) st) v
        = applyInsertions (entries.filterMap fun e => if e.1 = v then some e.2 else none) (st v) := by
  induction entries with
  | nil => intro st v; rfl
  | cons e rest ih =>
      intro st v
      rw [List.foldl_cons, List.filterMap_cons]
      by_cases h : e.1 = v
      · subst h
        rw [if_pos rfl, ih, Function.update_same]
        rfl
      · rw [if_neg h, ih, Function.update_noteq (fun hc => h hc.symm)]

lemma accumulate_proj (newIndices : Nat → List Nat)
    (clusterEntries : List (List (Nat × ℚ))) (v : Nat) :
    accumulateWeights newIndices clusterEntries v
      = applyInsertions (vertexInsertionStream newIndices clusterEntries v) (initSlots v) := by
  rw [accumulateWeights, vertexInsertionStream, foldl_update_proj]


/-! ## Helper lemmas: weight normalization -/

lemma sum_map_affine (l : List ℚ) (a c : ℚ) :
    (l.map fun w => a * w + c).sum = a * l.sum + l.length * c := by
  induction l with
  | nil => simp
  | cons x rest ih => simp [ih]; ring

lemma sum_toNat_cast (l : List ℤ) (h : ∀ x ∈ l, 0 ≤ x) :
    ((l.map Int.toNat).sum : ℤ) = l.sum := by
  induction l with
  | nil => simp
  | cons x rest ih =>
      simp only [List.map_cons, List.sum_cons, Nat.cast_add]
      rw [ih (fun y hy => h y (List.mem_cons_of_mem x hy)),
        Int.toNat_of_nonneg (h x (List.mem_cons_self x rest))]

lemma sum_floor_le (l : List ℚ) : (((l.map Int.floor).sum : ℤ) : ℚ) ≤ l.sum := by
  induction l with
  | nil => simp
  | cons x rest ih =>
      simp only [List.map_cons, List.sum_cons, Int.cast_add]
      exact add_le_add (Int.floor_le x) ih

lemma sum_floor_ge (l : List ℚ) : l.sum - l.length ≤ (((l.map Int.floor).sum : ℤ) : ℚ) := by
  induction l with
  | nil => norm_num
  | cons x rest ih =>
      simp only [List.map_cons, List.sum_cons, Int.cast_add, List.length_cons]
      push_cast
      have hx := Int.sub_one_lt_floor x
      push_cast at ih
      linarith

lemma normalize_sum_bounds (acc : List ℚ) (h4 : acc.length = 4)
    (hnn : ∀ w ∈ acc, 0 ≤ w) (hpos : 0 < acc.sum) :
    65533 ≤ (normalizeClusterWeights acc).sum ∧ (normalizeClusterWeights acc).sum ≤ 65536 := by
  have hT := hpos
  rw [normalizeClusterWeights]
  simp only [if_pos hpos]
  set T := acc.sum with hTdef
  set f : ℚ → ℚ := fun w => (65535 : ℚ) / T * w + 499 / 1000 with hf
  have hmap : (acc.map fun w => (⌊(65535 : ℚ) / T * w + 499 / 1000⌋).toNat)
      = ((acc.map f).map Int.floor).map Int.toNat := by
    simp [hf, List.map_map, Function.comp]
  rw [hmap]
  have hfl_nonneg : ∀ x ∈ (acc.map f).map Int.floor, (0 : ℤ) ≤ x := by
    intro x hx
    rw [List.mem_map] at hx
    obtain ⟨y, hy, rfl⟩ := hx
    rw [List.mem_map] at hy
    obtain ⟨w, hw, rfl⟩ := hy
    have hw0 : 0 ≤ w := hnn w hw
    have : (0 : ℚ) ≤ f w := by
      rw [hf]
      have : 0 ≤ (65535 : ℚ) / T * w := by positivity
      linarith
    exact Int.floor_nonneg.mpr this
  have hcast := sum_toNat_cast _ hfl_nonneg
  have hsum : (acc.map f).sum = 65535 + 4 * (499 / 1000) := by
    rw [hf, sum_map_affine, h4]
    rw [div_mul_eq_mul_div, mul_div_assoc, div_self (ne_of_gt hT)]
    norm_num
  have hup : ((((acc.map f).map Int.floor).sum : ℤ) : ℚ) ≤ 65535 + 4 * (499 / 1000) := by
    rw [← hsum]; exact sum_floor_le _
  have hlow : (65535 : ℚ) + 4 * (499 / 1000) - 4 ≤ ((((acc.map f).map Int.floor).sum : ℤ) : ℚ) := by
    have := sum_floor_ge (acc.map f)
    rw [hsum] at this
    simpa [h4] using this
  set S : ℤ := ((acc.map f).map Int.floor).sum with hS
  have hSup : S ≤ 65536 := by
    by_contra hcon
    push_neg at hcon
    have : (65537 : ℚ) ≤ (S : ℚ) := by exact_mod_cast hcon
    linarith
  have hSlow : 65533 ≤ S := by
    by_contra hcon
    push_neg at hcon
    have h2 : S ≤ 65532 := by omega
    have : (S : ℚ) ≤ 65532 := by exact_mod_cast h2
    linarith
  constructor
  · have : (65533 : ℤ) ≤ (((acc.map f).map Int.floor).map Int.toNat).sum := by
      rw [hcast]; exact hSlow
    exact_mod_cast this
  · have : ((((acc.map f).map Int.floor).map Int.toNat).sum : ℤ) ≤ 65536 := by
      rw [hcast]; exact hSup
    exact_mod_cast this

lemma normalize_zero (acc : List ℚ) (h : ¬ 0 < acc.sum) :
    (normalizeClusterWeights acc).sum = 0 := by
  rw [normalizeClusterWeights]
  simp [if_neg h]


/-! ## Helper lemmas: accumulation state -/

lemma fanOut_weight_nonneg (newIndices : Nat → List Nat)
    (clusterEntries : List (List (Nat × ℚ)))
    (hw : ∀ cl ∈ clusterEntries, ∀ p ∈ cl, 0 ≤ p.2) :
    ∀ e ∈ fanOut newIndices clusterEntries, 0 ≤ e.2.2 := by
  intro e he
  rw [fanOut, List.mem_flatMap] at he
  obtain ⟨ic, hic, he2⟩ := he
  rw [List.mem_flatMap] at he2
  obtain ⟨ow, how, he3⟩ := he2
  rw [List.mem_map] at he3
  obtain ⟨v, _, rfl⟩ := he3
  exact hw ic.2 (List.snd_mem_of_mem_enum hic) ow how

lemma vertexInsertionStream_nonneg (newIndices : Nat → List Nat)
    (clusterEntries : List (List (Nat × ℚ))) (v : Nat)
    (hw : ∀ cl ∈ clusterEntries, ∀ p ∈ cl, 0 ≤ p.2) :
    ∀ p ∈ vertexInsertionStream newIndices clusterEntries v, 0 ≤ p.2 := by
  intro p hp
  rw [vertexInsertionStream, List.mem_filterMap] at hp
  obtain ⟨e, he, heq⟩ := hp
  by_cases h : e.1 = v
  · rw [if_pos h] at heq
    cases heq
    exact fanOut_weight_nonneg newIndices clusterEntries hw e he
  · rw [if_neg h] at heq
    cases heq

lemma applyInsertions_nonneg (l : List (Nat × ℚ)) :
    ∀ (slots : List (Nat × ℚ)), (∀ p ∈ slots, 0 ≤ p.2) → (∀ p ∈ l, 0 ≤ p.2) →
      ∀ p ∈ applyInsertions l slots, 0 ≤ p.2 := by
  induction l with
  | nil => intro slots hs _ p hp; exact hs p hp
  | cons q rest ih =>
      intro slots hs hl p hp
      have hq : (0 : ℚ) ≤ q.2 := hl q (List.mem_cons_self q rest)
      exact ih (insertWeight slots q.1 q.2)
        (insertWeight_nonneg slots q.1 q.2 hs hq)
        (fun r hr => hl r (List.mem_cons_of_mem q hr)) p hp

lemma applyInsertions_length (l : List (Nat × ℚ)) :
    ∀ (slots : List (Nat × ℚ)), (applyInsertions l slots).length = slots.length := by
  induction l with
  | nil => intro slots; rfl
  | cons q rest ih =>
      intro slots
      rw [applyInsertions, List.foldl_cons]
      rw [show (rest.foldl (fun s p => insertWeight s p.1 p.2) (insertWeight slots q.1 q.2))
          = applyInsertions rest (insertWeight slots q.1 q.2) from rfl]
      rw [ih, insertWeight_length]

lemma accumulateWeights_length (newIndices : Nat → List Nat)
    (clusterEntries : List (List (Nat × ℚ))) (v : Nat) :
    (accumulateWeights newIndices clusterEntries v).length = 4 := by
  rw [accumulate_proj, applyInsertions_length, initSlots]
  exact List.length_replicate 4 (0, 0)

lemma accumulateWeights_nonneg (newIndices : Nat → List Nat)
    (clusterEntries : List (List (Nat × ℚ))) (v : Nat)
    (hw : ∀ cl ∈ clusterEntries, ∀ p ∈ cl, 0 ≤ p.2) :
    ∀ p ∈ accumulateWeights newIndices clusterEntries v, 0 ≤ p.2 := by
  rw [accumulate_proj]
  refine applyInsertions_nonneg _ _ ?_ (vertexInsertionStream_nonneg newIndices clusterEntries v hw)
  intro p hp
  rw [initSlots] at hp
  rw [List.eq_of_mem_replicate hp]

/-! ## Claims C2 and C8 -/

/-- Claim C8: in multi-cluster skinning, each vertex's fixed 4-slot
weight accumulator ends up holding the 4 highest-weight bone
influences among all (cluster, weight) pairs fanned out through the
vertex-deduplication map (ties kept in encounter order): as a
multiset, the four accumulated slot weights are the four largest
elements of the fanned-out weight stream for the vertex, padded with
the four initial zero slots. -/
theorem c8_top_four_influences (newIndices : Nat → List Nat)
    (clusterEntries : List (List (Nat × ℚ))) (v : Nat)
    (hw : ∀ cl ∈ clusterEntries, ∀ p ∈ cl, 0 ≤ p.2) :
    IsTopFour
      ((((vertexInsertionStream newIndices clusterEntries v).map Prod.snd : List ℚ) : Multiset ℚ)
        + Multiset.replicate 4 0)
      (slotWeights (accumulateWeights newIndices clusterEntries v)) := by
  rw [accumulate_proj]
  have h := applyInsertions_topfour (vertexInsertionStream newIndices clusterEntries v)
    (Multiset.replicate 4 0) (initSlots v) (initSlots_topfour v)
    (by
      intro p hp
      rw [initSlots] at hp
      rw [List.eq_of_mem_replicate hp])
    (vertexInsertionStream_nonneg newIndices clusterEntries v hw)
  rwa [add_comm] at h

/-- Witness for C8 at a concrete input: two clusters influence vertex
0 with weights 1 and 2 through an identity deduplication map. -/
theorem c8_witness :
    (∀ cl ∈ [[((0 : Nat), (1 : ℚ))], [((0 : Nat), (2 : ℚ))]], ∀ p ∈ cl, 0 ≤ p.2) ∧
    IsTopFour
      ((((vertexInsertionStream (fun o => if o = 0 then [0] else [])
          [[((0 : Nat), (1 : ℚ))], [((0 : Nat), (2 : ℚ))]] 0).map Prod.snd : List ℚ) : Multiset ℚ)
        + Multiset.replicate 4 0)
      (slotWeights (accumulateWeights (fun o => if o = 0 then [0] else [])
        [[((0 : Nat), (1 : ℚ))], [((0 : Nat), (2 : ℚ))]] 0)) := by
  constructor
  · intro cl hcl p hp
    rcases List.mem_cons.mp hcl with rfl | hcl2
    · rw [List.mem_singleton] at hp
      rw [hp]
      norm_num
    · rw [List.mem_singleton] at hcl2
      rw [hcl2] at hp
      rw [List.mem_singleton] at hp
      rw [hp]
      norm_num
  · exact c8_top_four_influences _ _ 0 (by
      intro cl hcl p hp
      rcases List.mem_cons.mp hcl with rfl | hcl2
      · rw [List.mem_singleton] at hp
        rw [hp]
        norm_num
      · rw [List.mem_singleton] at hcl2
        rw [hcl2] at hp
        rw [List.mem_singleton] at hp
        rw [hp]
        norm_num)

/-- Counterexample to claim C2 as stated: a mesh skinned by two
clusters that both influence vertex 0 with weight 1.  The vertex's
total accumulated input weight is 2 > 0, yet the stored 16-bit
weights are (uint16)(65535/2 * 1 + 0.499) = 32767 twice plus two
zeros, whose sum is 65534, not 65535. -/
theorem c2_counterexample :
    0 < ((accumulateWeights (fun o => if o = 0 then [0] else [])
        [[((0 : Nat), (1 : ℚ))], [((0 : Nat), (1 : ℚ))]] 0).map Prod.snd).sum ∧
    (normalizeClusterWeights
        ((accumulateWeights (fun o => if o = 0 then [0] else [])
          [[((0 : Nat), (1 : ℚ))], [((0 : Nat), (1 : ℚ))]] 0).map Prod.snd)).sum ≠ 65535 := by
  have hacc : (accumulateWeights (fun o => if o = 0 then [0] else [])
      [[((0 : Nat), (1 : ℚ))], [((0 : Nat), (1 : ℚ))]] 0).map Prod.snd = [1, 1, 0, 0] := by
    simp [accumulateWeights, fanOut, insertWeight, slotScan, initSlots, Function.update,
      List.enum, List.enumFrom]
  rw [hacc]
  constructor
  · norm_num
  · rw [normalizeClusterWeights]
    norm_num
    omega

/-- Claim C2 as amended: after accumulation and 16-bit normalization,
for every vertex of a multi-cluster mesh whose input weights are
nonnegative, the sum of the four stored weights lies between 65533
and 65536 (not exactly 65535: the 0.499 rounding offset loses or
gains up to two units) whenever the total accumulated weight is
positive, and the stored weights sum to 0 when no cluster influenced
the vertex. -/
theorem c2_normalized_weight_sum (newIndices : Nat → List Nat)
    (clusterEntries : List (List (Nat × ℚ))) (v : Nat)
    (hw : ∀ cl ∈ clusterEntries, ∀ p ∈ cl, 0 ≤ p.2) :
    (0 < ((accumulateWeights newIndices clusterEntries v).map Prod.snd).sum →
      65533 ≤ (normalizeClusterWeights
          ((accumulateWeights newIndices clusterEntries v).map Prod.snd)).sum ∧
        (normalizeClusterWeights
          ((accumulateWeights newIndices clusterEntries v).map Prod.snd)).sum ≤ 65536) ∧
    (¬ 0 < ((accumulateWeights newIndices clusterEntries v).map Prod.snd).sum →
      (normalizeClusterWeights
          ((accumulateWeights newIndices clusterEntries v).map Prod.snd)).sum = 0) := by
  constructor
  · intro hpos
    refine normalize_sum_bounds _ ?_ ?_ hpos
    · rw [List.length_map, accumulateWeights_length]
    · intro w hwmem
      rw [List.mem_map] at hwmem
      obtain ⟨p, hp, rfl⟩ := hwmem
      exact accumulateWeights_nonneg newIndices clusterEntries v hw p hp
  · exact normalize_zero _

/-- Witness for the amended C2 at the counterexample input. -/
theorem c2_witness :
    (∀ cl ∈ [[((0 : Nat), (1 : ℚ))], [((0 : Nat), (1 : ℚ))]], ∀ p ∈ cl, 0 ≤ p.2) ∧
    (0 < ((accumulateWeights (fun o => if o = 0 then [0] else [])
        [[((0 : Nat), (1 : ℚ))], [((0 : Nat), (1 : ℚ))]] 0).map Prod.snd).sum →
      65533 ≤ (normalizeClusterWeights
          ((accumulateWeights (fun o => if o = 0 then [0] else [])
            [[((0 : Nat), (1 : ℚ))], [((0 : Nat), (1 : ℚ))]] 0).map Prod.snd)).sum ∧
        (normalizeClusterWeights
          ((accumulateWeights (fun o => if o = 0 then [0] else [])
            [[((0 : Nat), (1 : ℚ))], [((0 : Nat), (1 : ℚ))]] 0).map Prod.snd)).sum ≤ 65536) := by
  have hnn : ∀ cl ∈ [[((0 : Nat), (1 : ℚ))], [((0 : Nat), (1 : ℚ))]], ∀ p ∈ cl, 0 ≤ p.2 := by
    intro cl hcl p hp
    rcases List.mem_cons.mp hcl with rfl | hcl2
    · rw [List.mem_singleton] at hp
      rw [hp]
      norm_num
    · rw [List.mem_singleton] at hcl2
      rw [hcl2] at hp
      rw [List.mem_singleton] at hp
      rw [hp]
      norm_num
  exact ⟨hnn, (c2_normalized_weight_sum _ _ 0 hnn).1⟩

/-! ## Helper lemmas: the pre-ordering pass -/

lemma prePassStep_reduce (modelKeys clusterKeys : List String) (st : ConnState)
    (m : String) :
    prePassStep [] modelKeys clusterKeys st m =
      (let parent := (st.parentMap m).headD ""
       let st2 :=
         if (st.childMap parent).contains m then st
         else { st with childMap := Function.update st.childMap parent (m :: st.childMap parent) }
       { st2 with remaining := st2.remaining ++ [m] }) := rfl

lemma prePassStep_parentMap (modelKeys clusterKeys : List String) (st : ConnState)
    (m : String) :
    (prePassStep [] modelKeys clusterKeys st m).parentMap = st.parentMap := by
  rw [prePassStep_reduce]
  dsimp only
  split <;> rfl

lemma prePass_parentMap (modelKeys clusterKeys : List String) :
    ∀ (ks : List String) (st : ConnState),
      (ks.foldl (prePassStep [] modelKeys clusterKeys) st).parentMap = st.parentMap := by
  intro ks
  induction ks with
  | nil => intro st; rfl
  | cons k rest ih =>
      intro st
      rw [List.foldl_cons, ih, prePassStep_parentMap]

lemma prePassStep_remaining (modelIDs modelKeys clusterKeys : List String) (st : ConnState)
    (m : String) :
    (prePassStep modelIDs modelKeys clusterKeys st m).remaining = st.remaining ++ [m] := by
  rw [prePassStep]
  split <;> (try split) <;> (try split) <;> rfl

lemma prePass_remaining (modelIDs modelKeys clusterKeys : List String) :
    ∀ (ks : List String) (st : ConnState),
      (ks.foldl (prePassStep modelIDs modelKeys clusterKeys) st).remaining
        = st.remaining ++ ks := by
  intro ks
  induction ks with
  | nil => intro st; simp
  | cons k rest ih =>
      intro st
      rw [List.foldl_cons, ih, prePassStep_remaining]
      simp

/-! ## Helper lemmas: appendModelIDs and the depth-first invariant -/

lemma appendModelIDs_succ (childMap : String → List String) (fuel : Nat) (pid : String)
    (root : Bool) (st : OrdState) :
    appendModelIDs childMap (fuel + 1) pid root st =
      (let st1 :=
        if st.remaining.contains pid then
          { st with
            modelIDs := st.modelIDs ++ [pid],
            remaining := st.remaining.erase pid }
        else st
       let parentIndex : Int := if root then -1 else (st1.modelIDs.length : Int) - 1
       (childMap pid).foldl
         (fun s childID =>
           if s.remaining.contains childID ∧ s.parentIdx childID = -1 then
             appendModelIDs childMap fuel childID false
               { s with parentIdx := Function.update s.parentIdx childID parentIndex }
           else s)
         st1) := rfl

lemma ordExt_refl (st : OrdState) : OrdExt st st :=
  ⟨⟨[], by simp⟩, fun _ h => h⟩

lemma ordExt_trans {a b c : OrdState} (h1 : OrdExt a b) (h2 : OrdExt b c) : OrdExt a c := by
  obtain ⟨⟨t1, ht1⟩, hr1⟩ := h1
  obtain ⟨⟨t2, ht2⟩, hr2⟩ := h2
  exact ⟨⟨t1 ++ t2, by rw [ht2, ht1, List.append_assoc]⟩, fun id h => hr1 id (hr2 id h)⟩

lemma contains_iff_mem (l : List String) (x : String) : l.contains x = true ↔ x ∈ l := by
  rw [List.contains_eq_any_beq]
  simp

lemma ordInv_append_step (st : OrdState) (pid : String) (h : OrderInv st) :
    OrderInv
      (if st.remaining.contains pid then
        { st with modelIDs := st.modelIDs ++ [pid], remaining := st.remaining.erase pid }
       else st) ∧
    OrdExt st
      (if st.remaining.contains pid then
        { st with modelIDs := st.modelIDs ++ [pid], remaining := st.remaining.erase pid }
       else st) := by
  obtain ⟨hA, hB, hC, hD⟩ := h
  by_cases hc : st.remaining.contains pid = true
  · rw [if_pos hc]
    have hmem : pid ∈ st.remaining := (contains_iff_mem _ _).mp hc
    refine ⟨⟨?_, ?_, ?_, ?_⟩, ⟨[pid], rfl⟩, fun id hid => List.mem_of_mem_erase hid⟩
    · intro id
      obtain ⟨h1, h2⟩ := hA id
      refine ⟨h1, lt_of_lt_of_le h2 ?_⟩
      simp
    · intro i hi
      rw [List.length_append, List.length_singleton] at hi
      by_cases hilt : i < st.modelIDs.length
      · have : (st.modelIDs ++ [pid])[i] = st.modelIDs[i] := List.getElem_append_left hilt
        rw [this]
        exact hB i hilt
      · have hieq : i = st.modelIDs.length := by omega
        subst hieq
        have : (st.modelIDs ++ [pid])[st.modelIDs.length] = pid := by
          rw [List.getElem_append_right (le_refl _)]
          simp
        rw [this]
        exact hA pid
    · intro id hid
      have h2 := (List.Nodup.mem_erase_iff hD).mp hid
      rw [List.mem_append, List.mem_singleton]
      rintro (hin | rfl)
      · exact hC id h2.2 hin
      · exact h2.1 rfl
    · exact hD.erase pid
  · rw [if_neg hc]
    exact ⟨⟨hA, hB, hC, hD⟩, ordExt_refl st⟩

lemma ordInv_update (s : OrdState) (c : String) (v : Int) (h : OrderInv s)
    (hc : c ∈ s.remaining) (hv : -1 ≤ v) (hvlt : v < (s.modelIDs.length : Int)) :
    OrderInv { s with parentIdx := Function.update s.parentIdx c v } := by
  obtain ⟨hA, hB, hC, hD⟩ := h
  refine ⟨?_, ?_, hC, hD⟩
  · intro id
    dsimp only
    by_cases hid : id = c
    · subst hid
      rw [Function.update_same]
      exact ⟨hv, hvlt⟩
    · rw [Function.update_noteq hid]
      exact hA id
  · intro i hi
    dsimp only at hi ⊢
    have hne : s.modelIDs[i] ≠ c := by
      intro hcon
      exact hC c hc (hcon ▸ List.getElem_mem hi)
    rw [Function.update_noteq hne]
    exact hB i hi

lemma appendModelIDs_ordInv (childMap : String → List String) :
    ∀ (fuel : Nat) (pid : String) (root : Bool) (st : OrdState),
      OrderInv st →
      OrderInv (appendModelIDs childMap fuel pid root st) ∧
        OrdExt st (appendModelIDs childMap fuel pid root st) := by
  intro fuel
  induction fuel with
  | zero => intro pid root st h; exact ⟨h, ordExt_refl st⟩
  | succ fuel ih =>
      intro pid root st h
      rw [appendModelIDs_succ]
      obtain ⟨h1, hext1⟩ := ordInv_append_step st pid h
      set st1 :=
        (if st.remaining.contains pid then
          { st with modelIDs := st.modelIDs ++ [pid], remaining := st.remaining.erase pid }
         else st) with hst1
      set parentIndex : Int := if root then -1 else (st1.modelIDs.length : Int) - 1 with hpi
      have hpib : -1 ≤ parentIndex ∧ parentIndex < (st1.modelIDs.length : Int) := by
        rw [hpi]
        by_cases hr : root = true
        · rw [if_pos hr]
          constructor
          · exact le_refl _
          · have : (0 : Int) ≤ (st1.modelIDs.length : Int) := Int.ofNat_nonneg _
            omega
        · rw [if_neg hr]
          constructor
          · have : (0 : Int) ≤ (st1.modelIDs.length : Int) := Int.ofNat_nonneg _
            omega
          · omega
      have hfold : ∀ (l : List String) (s : OrdState), OrderInv s → OrdExt st1 s →
          OrderInv (l.foldl
            (fun s childID =>
              if s.remaining.contains childID ∧ s.parentIdx childID = -1 then
                appendModelIDs childMap fuel childID false
                  { s with parentIdx := Function.update s.parentIdx childID parentIndex }
              else s) s) ∧
          OrdExt st1 (l.foldl
            (fun s childID =>
              if s.remaining.contains childID ∧ s.parentIdx childID = -1 then
                appendModelIDs childMap fuel childID false
                  { s with parentIdx := Function.update s.parentIdx childID parentIndex }
              else s) s) := by
        intro l
        induction l with
        | nil => intro s hs hext; exact ⟨hs, hext⟩
        | cons c rest ihl =>
            intro s hs hext
            rw [List.foldl_cons]
            by_cases hg : s.remaining.contains c ∧ s.parentIdx c = -1
            · rw [if_pos hg]
              have hcm : c ∈ s.remaining := (contains_iff_mem _ _).mp hg.1
              have hlen : (st1.modelIDs.length : Int) ≤ (s.modelIDs.length : Int) := by
                obtain ⟨⟨t, ht⟩, -⟩ := hext
                rw [ht]
                simp
              have hs2 : OrderInv { s with parentIdx := Function.update s.parentIdx c parentIndex } :=
                ordInv_update s c parentIndex hs hcm hpib.1 (lt_of_lt_of_le hpib.2 hlen)
              have hext2 : OrdExt st1 { s with parentIdx := Function.update s.parentIdx c parentIndex } := by
                obtain ⟨⟨t, ht⟩, hr⟩ := hext
                exact ⟨⟨t, ht⟩, hr⟩
              obtain ⟨h3, hext3⟩ := ih c false _ hs2
              exact
                (fun hres => ⟨hres.1, hres.2⟩)
                  (ihl _ h3 (ordExt_trans hext2 hext3))
            · rw [if_neg hg]
              exact ihl s hs hext
      obtain ⟨hres, hext⟩ := hfold (childMap pid) st1 h1 (ordExt_refl st1)
      exact ⟨hres, ordExt_trans hext1 hext⟩

lemma orderLoop_ordInv (childMap parentMap : String → List String) (modelKeys : List String) :
    ∀ (fuel : Nat) (st : OrdState), OrderInv st →
      OrderInv (orderLoop childMap parentMap modelKeys fuel st) := by
  intro fuel
  induction fuel with
  | zero => intro st h; exact h
  | succ fuel ih =>
      intro st h
      rw [orderLoop]
      match hrem : st.remaining with
      | [] => exact h
      | f :: rest =>
          exact ih _ (appendModelIDs_ordInv childMap _ _ _ _ h).1

/-! ## Claims C1 and C4 -/

/-- Claim C1: for every geometry produced by extractFBXGeometry, the
joints array is in depth-first order: writing parentIdx for the
parent index assigned to the model placed at position i of the
ordered model list (which becomes joints[i].parentIndex at
FBXReader.cpp line 1520), every parent index is at least -1 (-1 for
roots) and strictly less than i, so a single forward pass can
accumulate parent transforms. -/
theorem c1_joints_depth_first (connections : List (String × String))
    (modelKeys clusterKeys : List String) (hnd : modelKeys.Nodup) :
    ∀ i (hi : i < (modelOrderPipeline connections modelKeys clusterKeys).modelIDs.length),
      -1 ≤ (modelOrderPipeline connections modelKeys clusterKeys).parentIdx
          (modelOrderPipeline connections modelKeys clusterKeys).modelIDs[i] ∧
      (modelOrderPipeline connections modelKeys clusterKeys).parentIdx
          (modelOrderPipeline connections modelKeys clusterKeys).modelIDs[i] < (i : Int) := by
  have hinv0 : OrderInv
      (⟨fun _ => -1,
        (prePass [] modelKeys clusterKeys
          ⟨buildParentMap connections, buildChildMap connections, []⟩).remaining, []⟩ :
        OrdState) := by
    refine ⟨?_, ?_, ?_, ?_⟩
    · intro id
      constructor
      · exact le_refl _
      · simp
    · intro i hi
      simp at hi
    · intro id hid
      simp
    · rw [prePass, prePass_remaining]
      simpa using hnd
  have h := orderLoop_ordInv
    (prePass [] modelKeys clusterKeys
      ⟨buildParentMap connections, buildChildMap connections, []⟩).childMap
    (prePass [] modelKeys clusterKeys
      ⟨buildParentMap connections, buildChildMap connections, []⟩).parentMap
    modelKeys modelKeys.length _ hinv0
  exact h.2.1

/-- Witness for C1 at a concrete input: models A and B with the
connection B-child-of-A. -/
theorem c1_witness :
    (["A", "B"] : List String).Nodup ∧
    ∀ i (hi : i < (modelOrderPipeline [("B", "A")] ["A", "B"] []).modelIDs.length),
      -1 ≤ (modelOrderPipeline [("B", "A")] ["A", "B"] []).parentIdx
          (modelOrderPipeline [("B", "A")] ["A", "B"] []).modelIDs[i] ∧
      (modelOrderPipeline [("B", "A")] ["A", "B"] []).parentIdx
          (modelOrderPipeline [("B", "A")] ["A", "B"] []).modelIDs[i] < (i : Int) :=
  ⟨by decide, c1_joints_depth_first [("B", "A")] ["A", "B"] [] (by decide)⟩

/-- Claim C4 is contradicted by the code (code bug): the
cluster-reparenting branch of the pre-ordering pass never executes,
because `isARootNode` tests membership of the model's parent in the
`modelIDs` vector, which is still empty at this program point
(FBXReader.cpp lines 1462-1467), so every model is treated as a root
and the child-to-parent connection map is never modified, for every
input. -/
theorem c4_reparent_never_fires (modelKeys clusterKeys : List String) (st : ConnState) :
    (prePass [] modelKeys clusterKeys st).parentMap = st.parentMap := by
  rw [prePass]
  exact prePass_parentMap modelKeys clusterKeys modelKeys st

/-! ## Helper lemmas: completed appendModelIDs runs -/

lemma appendModelIDs_run (childMap : String → List String) :
    ∀ (fuel : Nat) (pid : String) (root : Bool) (st : OrdState),
      st.remaining.length + (if pid ∈ st.remaining then 0 else 1) ≤ fuel →
      (∀ id ∈ st.remaining, id ≠ pid → st.parentIdx id = -1) →
      st.remaining.Nodup →
      AppendRun childMap pid st (appendModelIDs childMap fuel pid root st) := by
  intro fuel
  induction fuel with
  | zero =>
      intro pid root st hfuel hinv hnodup
      exfalso
      by_cases hp : pid ∈ st.remaining
      · rw [if_pos hp] at hfuel
        have := List.length_pos.mpr (List.ne_nil_of_mem hp)
        omega
      · rw [if_neg hp] at hfuel
        omega
  | succ fuel ih =>
      intro pid root st hfuel hinv hnodup
      rw [appendModelIDs_succ]
      set st1 :=
        (if st.remaining.contains pid then
          { st with modelIDs := st.modelIDs ++ [pid], remaining := st.remaining.erase pid }
         else st) with hst1
      set parentIndex : Int := if root then -1 else (st1.modelIDs.length : Int) - 1 with hpi
      have hcases : (pid ∈ st.remaining ∧
            st1.modelIDs = st.modelIDs ++ [pid] ∧ st1.remaining = st.remaining.erase pid) ∨
          (pid ∉ st.remaining ∧ st1 = st) := by
        by_cases hp : pid ∈ st.remaining
        · left
          refine ⟨hp, ?_, ?_⟩ <;> rw [hst1, if_pos ((contains_iff_mem _ _).mpr hp)]
        · right
          refine ⟨hp, ?_⟩
          rw [hst1, if_neg (by
            intro hcon
            exact hp ((contains_iff_mem _ _).mp hcon))]
      have hmass1 : (st1.modelIDs : Multiset String) + (st1.remaining : Multiset String)
          = (st.modelIDs : Multiset String) + (st.remaining : Multiset String) := by
        rcases hcases with ⟨hp, hids, hrem⟩ | ⟨hp, heq⟩
        · rw [hids, hrem]
          show (st.modelIDs : Multiset String) + {pid} + ((st.remaining : Multiset String).erase pid)
              = (st.modelIDs : Multiset String) + (st.remaining : Multiset String)
          rw [add_assoc]
          congr 1
          rw [Multiset.singleton_add, Multiset.cons_erase (show pid ∈ (st.remaining : Multiset String) from hp)]
        · rw [heq]
      have hpidx1 : st1.parentIdx = st.parentIdx := by
        rw [hst1]
        split <;> rfl
      have hun1 : RemainingUnset st1 := by
        rcases hcases with ⟨hp, hids, hrem⟩ | ⟨hp, heq⟩
        · intro id hid
          rw [hrem] at hid
          have h2 := (List.Nodup.mem_erase_iff hnodup).mp hid
          show st1.parentIdx id = -1
          rw [hpidx1]
          exact hinv id h2.2 h2.1
        · rw [heq]
          intro id hid
          exact hinv id hid (fun hcon => hp (hcon ▸ hid))
      have hnd1 : st1.remaining.Nodup := by
        rcases hcases with ⟨hp, hids, hrem⟩ | ⟨hp, heq⟩
        · rw [hrem]; exact hnodup.erase pid
        · rw [heq]; exact hnodup
      have hsub1 : st1.remaining.Sublist st.remaining := by
        rcases hcases with ⟨hp, hids, hrem⟩ | ⟨hp, heq⟩
        · rw [hrem]; exact List.erase_sublist pid st.remaining
        · rw [heq]
      have hpid1 : pid ∉ st1.remaining := by
        rcases hcases with ⟨hp, hids, hrem⟩ | ⟨hp, heq⟩
        · rw [hrem]
          intro hcon
          exact ((List.Nodup.mem_erase_iff hnodup).mp hcon).1 rfl
        · rw [heq]; exact hp
      have hfuel1 : st1.remaining.length ≤ fuel := by
        rcases hcases with ⟨hp, hids, hrem⟩ | ⟨hp, heq⟩
        · rw [if_pos hp] at hfuel
          rw [hrem, List.length_erase_of_mem hp]
          have := List.length_pos.mpr (List.ne_nil_of_mem hp)
          omega
        · rw [if_neg hp] at hfuel
          rw [heq]
          omega
      have hmono1 : ∀ x ∈ st.modelIDs, x ∈ st1.modelIDs := by
        rcases hcases with ⟨hp, hids, hrem⟩ | ⟨hp, heq⟩
        · rw [hids]; intro x hx; exact List.mem_append_left _ hx
        · rw [heq]; intro x hx; exact hx
      have hnew1 : ∀ m ∈ st1.modelIDs, m ∉ st.modelIDs → m = pid := by
        rcases hcases with ⟨hp, hids, hrem⟩ | ⟨hp, heq⟩
        · rw [hids]
          intro m hm hm2
          rcases List.mem_append.mp hm with h | h
          · exact absurd h hm2
          · exact List.mem_singleton.mp h
        · rw [heq]
          intro m hm hm2
          exact absurd hm hm2
      have hfold : ∀ (l : List String) (s : OrdState),
          s.remaining.length ≤ fuel → RemainingUnset s → s.remaining.Nodup →
          (((l.foldl
              (fun s childID =>
                if s.remaining.contains childID ∧ s.parentIdx childID = -1 then
                  appendModelIDs childMap fuel childID false
                    { s with parentIdx := Function.update s.parentIdx childID parentIndex }
                else s) s).modelIDs : Multiset String)
              + ((l.foldl
              (fun s childID =>
                if s.remaining.contains childID ∧ s.parentIdx childID = -1 then
                  appendModelIDs childMap fuel childID false
                    { s with parentIdx := Function.update s.parentIdx childID parentIndex }
                else s) s).remaining : Multiset String)
              = (s.modelIDs : Multiset String) + (s.remaining : Multiset String)) ∧
          RemainingUnset (l.foldl
              (fun s childID =>
                if s.remaining.contains childID ∧ s.parentIdx childID = -1 then
                  appendModelIDs childMap fuel childID false
                    { s with parentIdx := Function.update s.parentIdx childID parentIndex }
                else s) s) ∧
          (l.foldl
              (fun s childID =>
                if s.remaining.contains childID ∧ s.parentIdx childID = -1 then
                  appendModelIDs childMap fuel childID false
                    { s with parentIdx := Function.update s.parentIdx childID parentIndex }
                else s) s).remaining.Nodup ∧
          (l.foldl
              (fun s childID =>
                if s.remaining.contains childID ∧ s.parentIdx childID = -1 then
                  appendModelIDs childMap fuel childID false
                    { s with parentIdx := Function.update s.parentIdx childID parentIndex }
                else s) s).remaining.Sublist s.remaining ∧
          (∀ x ∈ s.modelIDs, x ∈ (l.foldl
              (fun s childID =>
                if s.remaining.contains childID ∧ s.parentIdx childID = -1 then
                  appendModelIDs childMap fuel childID false
                    { s with parentIdx := Function.update s.parentIdx childID parentIndex }
                else s) s).modelIDs) ∧
          (∀ c ∈ l, c ∉ (l.foldl
              (fun s childID =>
                if s.remaining.contains childID ∧ s.parentIdx childID = -1 then
                  appendModelIDs childMap fuel childID false
                    { s with parentIdx := Function.update s.parentIdx childID parentIndex }
                else s) s).remaining) ∧
          (∀ m ∈ (l.foldl
              (fun s childID =>
                if s.remaining.contains childID ∧ s.parentIdx childID = -1 then
                  appendModelIDs childMap fuel childID false
                    { s with parentIdx := Function.update s.parentIdx childID parentIndex }
                else s) s).modelIDs, m ∉ s.modelIDs → ∀ c ∈ childMap m,
              c ∉ (l.foldl
              (fun s childID =>
                if s.remaining.contains childID ∧ s.parentIdx childID = -1 then
                  appendModelIDs childMap fuel childID false
                    { s with parentIdx := Function.update s.parentIdx childID parentIndex }
                else s) s).remaining) := by
        intro l
        induction l with
        | nil =>
            intro s hf hu hn
            refine ⟨rfl, hu, hn, List.Sublist.refl _, fun _ h => h, by simp, ?_⟩
            intro m hm hm2 c hc
            exact absurd hm hm2
        | cons c rest ihl =>
            intro s hf hu hn
            rw [List.foldl_cons]
            by_cases hg : s.remaining.contains c ∧ s.parentIdx c = -1
            · rw [if_pos hg]
              have hcm : c ∈ s.remaining := (contains_iff_mem _ _).mp hg.1
              have hrun := ih c false
                { s with parentIdx := Function.update s.parentIdx c parentIndex }
                (by
                  rw [if_pos (show c ∈ s.remaining from hcm)]
                  simpa using hf)
                (by
                  intro id hid hne
                  show Function.update s.parentIdx c parentIndex id = -1
                  rw [Function.update_noteq hne]
                  exact hu id hid)
                hn
              obtain ⟨rmass, run2, rnodup, rshrink, rmono, rchout, rcout, rnew⟩ := hrun
              have hres := ihl (appendModelIDs childMap fuel c false
                  { s with parentIdx := Function.update s.parentIdx c parentIndex })
                (le_trans (List.Sublist.length_le rshrink) hf) run2 rnodup
              obtain ⟨fmass, fun2, fnodup, fshrink, fmono, fchout, fnew⟩ := hres
              refine ⟨?_, fun2, fnodup, ?_, ?_, ?_, ?_⟩
              · rw [fmass, rmass]
              · exact List.Sublist.trans fshrink rshrink
              · intro x hx
                exact fmono x (rmono x hx)
              · intro c2 hc2
                rcases List.mem_cons.mp hc2 with rfl | hc3
                · intro hcon
                  exact rcout (List.Sublist.subset fshrink hcon)
                · exact fchout c2 hc3
              · intro m hm hm2 ch hch
                by_cases hmr : m ∈ (appendModelIDs childMap fuel c false
                    { s with parentIdx := Function.update s.parentIdx c parentIndex }).modelIDs
                · intro hcon
                  exact rnew m hmr hm2 ch hch (List.Sublist.subset fshrink hcon)
                · exact fnew m hm hmr ch hch
            · rw [if_neg hg]
              have hres := ihl s hf hu hn
              obtain ⟨fmass, fun2, fnodup, fshrink, fmono, fchout, fnew⟩ := hres
              refine ⟨fmass, fun2, fnodup, fshrink, fmono, ?_, fnew⟩
              intro c2 hc2
              rcases List.mem_cons.mp hc2 with rfl | hc3
              · by_cases hcs : c2 ∈ s.remaining
                · exact absurd ⟨(contains_iff_mem _ _).mpr hcs, hu c2 hcs⟩ hg
                · intro hcon
                  exact hcs (List.Sublist.subset fshrink hcon)
              · exact fchout c2 hc3
      have hres := hfold (childMap pid) st1 hfuel1 hun1 hnd1
      obtain ⟨fmass, fun2, fnodup, fshrink, fmono, fchout, fnew⟩ := hres
      refine ⟨?_, fun2, fnodup, List.Sublist.trans fshrink hsub1, ?_, fchout, ?_, ?_⟩
      · rw [fmass, hmass1]
      · intro x hx
        exact fmono x (hmono1 x hx)
      · intro hcon
        exact hpid1 (List.Sublist.subset fshrink hcon)
      · intro m hm hm2 c hc
        by_cases hm1 : m ∈ st1.modelIDs
        · have := hnew1 m hm1 hm2
          subst this
          exact fchout c hc
        · exact fnew m hm hm1 c hc

/-! ## Helper lemmas: the upward walk and the connection maps -/

lemma getTop_succ (pm : String → List String) (mk : List String) (fuel : Nat)
    (visited : List String) (top : String) :
    getTopModelID pm mk (fuel + 1) visited top =
      (match (pm top).find?
          (fun p => !((visited ++ [top]).contains p) && mk.contains p) with
       | some p => getTopModelID pm mk fuel (visited ++ [top]) p
       | none => top) := rfl

lemma getTop_reach (pm : String → List String) (mk : List String) :
    ∀ (fuel : Nat) (visited : List String) (top : String),
      Relation.ReflTransGen (ParentStep pm mk) top (getTopModelID pm mk fuel visited top) := by
  intro fuel
  induction fuel with
  | zero => intro visited top; exact Relation.ReflTransGen.refl
  | succ fuel ih =>
      intro visited top
      rw [getTop_succ]
      cases hf : (pm top).find?
          (fun p => !((visited ++ [top]).contains p) && mk.contains p) with
      | none => exact Relation.ReflTransGen.refl
      | some p =>
          have hmem := List.mem_of_find?_eq_some hf
          have hpred := List.find?_some hf
          rw [Bool.and_eq_true] at hpred
          have hstep : ParentStep pm mk top p :=
            ⟨hmem, (contains_iff_mem _ _).mp hpred.2⟩
          exact Relation.ReflTransGen.head hstep (ih (visited ++ [top]) p)

lemma getTop_mem (pm : String → List String) (mk : List String) :
    ∀ (fuel : Nat) (visited : List String) (top : String),
      getTopModelID pm mk fuel visited top = top ∨ getTopModelID pm mk fuel visited top ∈ mk := by
  intro fuel
  induction fuel with
  | zero => intro visited top; exact Or.inl rfl
  | succ fuel ih =>
      intro visited top
      rw [getTop_succ]
      cases hf : (pm top).find?
          (fun p => !((visited ++ [top]).contains p) && mk.contains p) with
      | none => exact Or.inl rfl
      | some p =>
          dsimp only
          have hpred := List.find?_some hf
          rw [Bool.and_eq_true] at hpred
          have hp : p ∈ mk := (contains_iff_mem _ _).mp hpred.2
          rcases ih (visited ++ [top]) p with heq | hin
          · rw [heq]; exact Or.inr hp
          · exact Or.inr hin

lemma buildMaps_sym_aux :
    ∀ (cs : List (String × String)) (pm cm : String → List String), SymMaps pm cm →
      SymMaps (cs.foldl (fun pm cp => Function.update pm cp.1 (cp.2 :: pm cp.1)) pm)
        (cs.foldl (fun cm cp => Function.update cm cp.2 (cp.1 :: cm cp.2)) cm) := by
  intro cs
  induction cs with
  | nil => intro pm cm h; exact h
  | cons e rest ih =>
      intro pm cm h
      rw [List.foldl_cons, List.foldl_cons]
      refine ih _ _ ?_
      intro a b hb
      have hsup : ∀ x k, x ∈ cm k → x ∈ Function.update cm e.2 (e.1 :: cm e.2) k := by
        intro x k hx
        by_cases hk : k = e.2
        · subst hk
          rw [Function.update_same]
          exact List.mem_cons_of_mem _ hx
        · rw [Function.update_noteq hk]
          exact hx
      by_cases ha : a = e.1
      · subst ha
        rw [Function.update_same] at hb
        rcases List.mem_cons.mp hb with rfl | hb2
        · rw [Function.update_same]
          exact List.mem_cons_self _ _
        · exact hsup e.1 b (h e.1 b hb2)
      · rw [Function.update_noteq ha] at hb
        exact hsup a b (h a b hb)

lemma buildMaps_sym (cs : List (String × String)) :
    SymMaps (buildParentMap cs) (buildChildMap cs) := by
  rw [buildParentMap, buildChildMap]
  refine buildMaps_sym_aux cs _ _ ?_
  intro a b hb
  exact absurd hb (List.not_mem_nil b)

lemma prePassStep_childMap_sup (modelKeys clusterKeys : List String) (st : ConnState)
    (m : String) :
    ∀ x k, x ∈ st.childMap k → x ∈ (prePassStep [] modelKeys clusterKeys st m).childMap k := by
  intro x k hx
  rw [prePassStep_reduce]
  dsimp only
  split
  · exact hx
  · show x ∈ Function.update st.childMap ((st.parentMap m).headD "")
      (m :: st.childMap ((st.parentMap m).headD "")) k
    by_cases hk : k = (st.parentMap m).headD ""
    · subst hk
      rw [Function.update_same]
      exact List.mem_cons_of_mem _ hx
    · rw [Function.update_noteq hk]
      exact hx

lemma prePass_childMap_sup (modelKeys clusterKeys : List String) :
    ∀ (ks : List String) (st : ConnState) (x k : String),
      x ∈ st.childMap k →
      x ∈ (ks.foldl (prePassStep [] modelKeys clusterKeys) st).childMap k := by
  intro ks
  induction ks with
  | nil => intro st x k hx; exact hx
  | cons a rest ih =>
      intro st x k hx
      rw [List.foldl_cons]
      exact ih _ x k (prePassStep_childMap_sup modelKeys clusterKeys st a x k hx)

lemma prePassStep_ensures (modelKeys clusterKeys : List String) (st : ConnState)
    (m : String) :
    m ∈ (prePassStep [] modelKeys clusterKeys st m).childMap
      (((prePassStep [] modelKeys clusterKeys st m).parentMap m).headD "") := by
  have hpm := prePassStep_parentMap modelKeys clusterKeys st m
  rw [hpm, prePassStep_reduce]
  dsimp only
  split
  · next hcontains => exact (contains_iff_mem _ _).mp hcontains
  · show m ∈ Function.update st.childMap ((st.parentMap m).headD "")
      (m :: st.childMap ((st.parentMap m).headD "")) ((st.parentMap m).headD "")
    rw [Function.update_same]
    exact List.mem_cons_self _ _

lemma prePass_ensures (modelKeys clusterKeys : List String) :
    ∀ (ks : List String) (st : ConnState) (m : String), m ∈ ks →
      m ∈ (ks.foldl (prePassStep [] modelKeys clusterKeys) st).childMap
        (((ks.foldl (prePassStep [] modelKeys clusterKeys) st).parentMap m).headD "") := by
  intro ks
  induction ks with
  | nil => intro st m hm; exact absurd hm (List.not_mem_nil m)
  | cons a rest ih =>
      intro st m hm
      rw [List.foldl_cons]
      rcases List.mem_cons.mp hm with rfl | hm2
      · have h1 := prePassStep_ensures modelKeys clusterKeys st m
        have hpm := prePass_parentMap modelKeys clusterKeys rest
          (prePassStep [] modelKeys clusterKeys st m)
        rw [hpm]
        exact prePass_childMap_sup modelKeys clusterKeys rest _ m _ h1
      · exact ih _ m hm2

lemma smallestID_result (l : List String) :
    ∀ (a : String), smallestID l a = a ∨ smallestID l a ∈ l := by
  induction l with
  | nil => intro a; exact Or.inl rfl
  | cons x rest ih =>
      intro a
      rw [smallestID, List.foldl_cons]
      rcases ih (if x < a then x else a) with heq | hin
      · rw [smallestID] at heq
        rw [heq]
        by_cases hx : x < a
        · rw [if_pos hx]
          exact Or.inr (List.mem_cons_self x rest)
        · rw [if_neg hx]
          exact Or.inl rfl
      · rw [smallestID] at hin
        exact Or.inr (List.mem_cons_of_mem x hin)

/-! ## Helper lemmas: completeness of the ordering loop -/

lemma orderLoop_succ (cm pm : String → List String) (mk : List String) (fuel : Nat)
    (st : OrdState) :
    orderLoop cm pm mk (fuel + 1) st =
      (match st.remaining with
       | [] => st
       | f :: rest =>
           orderLoop cm pm mk fuel
             (appendModelIDs cm (st.remaining.length + 1)
               ((pm (getTopModelID pm mk (mk.length + 1) [] (smallestID (f :: rest) f))).headD "")
               true st)) := rfl

lemma orderLoop_complete (cm pm : String → List String) (mk : List String)
    (hsym : SymMaps pm cm) (hens : ∀ m ∈ mk, m ∈ cm ((pm m).headD "")) :
    ∀ (fuel : Nat) (st : OrdState),
      st.remaining.length ≤ fuel →
      RemainingUnset st → st.remaining.Nodup →
      ((st.modelIDs : Multiset String) + (st.remaining : Multiset String)
        = (mk : Multiset String)) →
      ChildrenPlaced cm st →
      (orderLoop cm pm mk fuel st).remaining = [] ∧
      ((orderLoop cm pm mk fuel st).modelIDs : Multiset String) = (mk : Multiset String) := by
  intro fuel
  induction fuel with
  | zero =>
      intro st hfuel hun hnd hmass hcp
      have hnil : st.remaining = [] := List.eq_nil_of_length_eq_zero (by omega)
      rw [orderLoop]
      refine ⟨hnil, ?_⟩
      rw [hnil] at hmass
      simpa using hmass
  | succ fuel ih =>
      intro st hfuel hun hnd hmass hcp
      rw [orderLoop_succ]
      rcases hrem : st.remaining with _ | ⟨f, rest⟩
      · refine ⟨by rw [hrem], ?_⟩
        rw [hrem] at hmass
        simpa using hmass
      · dsimp only
        rw [← hrem]
        set first := smallestID st.remaining f with hfirst
        set topID := getTopModelID pm mk (mk.length + 1) [] first with htop
        have hfmem : first ∈ st.remaining := by
          rw [hfirst, hrem]
          rcases smallestID_result (f :: rest) f with heq | hin
          · rw [heq]
            exact List.mem_cons_self f rest
          · exact hin
        have hfmk : first ∈ mk := by
          have : first ∈ (mk : Multiset String) := by
            rw [← hmass]
            rw [Multiset.mem_add]
            exact Or.inr hfmem
          exact this
        have htopmk : topID ∈ mk := by
          rcases getTop_mem pm mk (mk.length + 1) [] first with heq | hin
          · rw [htop, heq]; exact hfmk
          · rw [htop]; exact hin
        have hrun := appendModelIDs_run cm (st.remaining.length + 1)
          ((pm topID).headD "") true st
          (by split <;> omega)
          (fun id hid _ => hun id hid) hnd
        set r := appendModelIDs cm (st.remaining.length + 1) ((pm topID).headD "") true st
          with hr
        have hmass2 : (r.modelIDs : Multiset String) + (r.remaining : Multiset String)
            = (mk : Multiset String) := by
          rw [hrun.mass, hmass]
        have hcp2 : ChildrenPlaced cm r := by
          intro m hm c hc
          by_cases hms : m ∈ st.modelIDs
          · intro hcon
            exact hcp m hms c hc (List.Sublist.subset hrun.shrink hcon)
          · exact hrun.newPlaced m hm hms c hc
        have hplaced : ∀ x, x ∈ mk → x ∉ r.remaining → x ∈ r.modelIDs := by
          intro x hx hnr
          have : x ∈ (r.modelIDs : Multiset String) + (r.remaining : Multiset String) := by
            rw [hmass2]
            exact hx
          rcases Multiset.mem_add.mp this with h | h
          · exact h
          · exact absurd h hnr
        have htopout : topID ∉ r.remaining :=
          hrun.childrenOut topID (hens topID htopmk)
        have hfout : first ∉ r.remaining := by
          have hchain : Relation.ReflTransGen (ParentStep pm mk) first topID :=
            getTop_reach pm mk (mk.length + 1) [] first
          have hmot : ∀ x, Relation.ReflTransGen (ParentStep pm mk) x topID →
              x ∈ mk → x ∉ r.remaining := by
            intro x hx
            refine Relation.ReflTransGen.head_induction_on hx ?_ ?_
            · intro _
              exact htopout
            · intro a c hac hcr ihc ha
              have hcout : c ∉ r.remaining := ihc hac.2
              have hcin : c ∈ r.modelIDs := hplaced c hac.2 hcout
              exact hcp2 c hcin a (hsym a c hac.1)
          exact hmot first hchain hfmk
        have hlt : r.remaining.length < st.remaining.length := by
          rcases lt_or_eq_of_le (List.Sublist.length_le hrun.shrink) with h | h
          · exact h
          · exfalso
            have := List.Sublist.eq_of_length hrun.shrink h
            rw [this] at hfout
            exact hfout hfmem
        refine ih r ?_ hrun.unset hrun.nodup hmass2 hcp2
        omega

/-! ## Claim C3 -/

/-- Claim C3: for every connection graph, including cyclic ones, the
model-ordering traversal terminates within fuel bounds linear in the
node count (the pipeline runs the ordering loop with one iteration
per model, the upward walk with modelKeys.length + 1 steps and the
recursive append with remaining.length + 1 levels) and, far from
looping or losing branches, finishes with an empty remaining set and
a model order that contains every model exactly once. -/
theorem c3_order_complete (connections : List (String × String))
    (modelKeys clusterKeys : List String) (hnd : modelKeys.Nodup) :
    (modelOrderPipeline connections modelKeys clusterKeys).remaining = [] ∧
    (modelOrderPipeline connections modelKeys clusterKeys).modelIDs.Nodup ∧
    ∀ id, id ∈ (modelOrderPipeline connections modelKeys clusterKeys).modelIDs
      ↔ id ∈ modelKeys := by
  set pre := prePass [] modelKeys clusterKeys
    ⟨buildParentMap connections, buildChildMap connections, []⟩ with hpre
  have hpm : pre.parentMap = buildParentMap connections := by
    rw [hpre]
    exact c4_reparent_never_fires modelKeys clusterKeys _
  have hsym : SymMaps pre.parentMap pre.childMap := by
    rw [hpm]
    intro a b hb
    have h2 := buildMaps_sym connections a b hb
    rw [hpre, prePass]
    exact prePass_childMap_sup modelKeys clusterKeys modelKeys _ a b h2
  have hens : ∀ m ∈ modelKeys, m ∈ pre.childMap ((pre.parentMap m).headD "") := by
    intro m hm
    rw [hpre, prePass]
    exact prePass_ensures modelKeys clusterKeys modelKeys _ m hm
  have hrem : pre.remaining = modelKeys := by
    rw [hpre, prePass, prePass_remaining]
    simp
  have hcomp := orderLoop_complete pre.childMap pre.parentMap modelKeys hsym hens
    modelKeys.length ⟨fun _ => -1, pre.remaining, []⟩
    (by
      show pre.remaining.length ≤ modelKeys.length
      rw [hrem])
    (fun id _ => rfl)
    (by
      show pre.remaining.Nodup
      rw [hrem]
      exact hnd)
    (by
      show (([] : List String) : Multiset String) + (pre.remaining : Multiset String)
          = (modelKeys : Multiset String)
      rw [hrem]
      simp)
    (fun m hm => absurd hm (List.not_mem_nil m))
  have hres : modelOrderPipeline connections modelKeys clusterKeys
      = orderLoop pre.childMap pre.parentMap modelKeys modelKeys.length
          ⟨fun _ => -1, pre.remaining, []⟩ := rfl
  rw [hres]
  have hperm : (orderLoop pre.childMap pre.parentMap modelKeys modelKeys.length
      ⟨fun _ => -1, pre.remaining, []⟩).modelIDs.Perm modelKeys :=
    Multiset.coe_eq_coe.mp hcomp.2
  refine ⟨hcomp.1, ?_, ?_⟩
  · exact (List.Perm.nodup_iff hperm).mpr hnd
  · intro id
    exact ⟨fun h => hperm.subset h, fun h => hperm.symm.subset h⟩

/-- Witness for C3 at a concrete input: a two-node parent-child cycle
(A is B's parent and B is A's parent in the connection block). -/
theorem c3_witness :
    (["A", "B"] : List String).Nodup ∧
    ((modelOrderPipeline [("B", "A"), ("A", "B")] ["A", "B"] []).remaining = [] ∧
     (modelOrderPipeline [("B", "A"), ("A", "B")] ["A", "B"] []).modelIDs.Nodup ∧
     ∀ id, id ∈ (modelOrderPipeline [("B", "A"), ("A", "B")] ["A", "B"] []).modelIDs
       ↔ id ∈ (["A", "B"] : List String)) :=
  ⟨by decide, c3_order_complete [("B", "A"), ("A", "B")] ["A", "B"] [] (by decide)⟩

/-! ## Helper lemmas: cluster binding (claim C7) -/

lemma qIndexOf_not_mem (l : List String) (x : String) (h : x ∉ l) : qIndexOf l x = -1 := by
  induction l with
  | nil => rfl
  | cons a rest ih =>
      rw [qIndexOf]
      rw [if_neg (show ¬(a = x) from fun hc => h (List.mem_cons.mpr (Or.inl hc.symm)))]
      rw [ih (fun hc => h (List.mem_cons_of_mem a hc))]
      rfl

lemma qIndexOf_mem (l : List String) (x : String) (h : x ∈ l) :
    qIndexOf l x = (l.indexOf x : Int) ∧ 0 ≤ qIndexOf l x := by
  induction l with
  | nil => exact absurd h (List.not_mem_nil x)
  | cons a rest ih =>
      rw [qIndexOf]
      by_cases hax : a = x
      · rw [if_pos hax, hax, List.indexOf_cons_self]
        exact ⟨rfl, le_refl 0⟩
      · rw [if_neg hax]
        have hx : x ∈ rest := by
          rcases List.mem_cons.mp h with heq | hr
          · exact absurd heq.symm hax
          · exact hr
        obtain ⟨h1, h2⟩ := ih hx
        rw [List.indexOf_cons_ne rest hax]
        rw [h1] at h2 ⊢
        rw [if_neg (by omega)]
        constructor
        · push_cast
          ring
        · omega

/-! ## Claims C7 and C10 -/

/-- Claim C7: a mesh with zero associated skin clusters still gets
exactly one cluster, whose jointIndex is the owning model's position
in the ordered model list, or 0 when the owning model is not in that
list; and no mesh, with or without clusters, is ever left without a
binding. -/
theorem c7_mesh_cluster_fallback (childMap : String → List String)
    (clusterKeys modelIDs : List String) (meshID modelID : String) :
    buildMeshClusters childMap clusterKeys modelIDs meshID modelID ≠ [] ∧
    (meshClusterJointIDs childMap clusterKeys meshID = [] →
      (modelID ∈ modelIDs →
        buildMeshClusters childMap clusterKeys modelIDs meshID modelID
          = [(modelIDs.indexOf modelID : Int)]) ∧
      (modelID ∉ modelIDs →
        buildMeshClusters childMap clusterKeys modelIDs meshID modelID = [0])) := by
  constructor
  · rw [buildMeshClusters]
    dsimp only
    split
    · intro hcon
      cases hcon
    · next hne =>
        intro hcon
        rw [hcon] at hne
        exact hne rfl
  · intro hempty
    have hnil : buildMeshClusters childMap clusterKeys modelIDs meshID modelID
        = [let idx := qIndexOf modelIDs modelID
           if idx = -1 then 0 else idx] := by
      rw [buildMeshClusters, hempty]
      rfl
    constructor
    · intro hmem
      rw [hnil]
      obtain ⟨h1, h2⟩ := qIndexOf_mem modelIDs modelID hmem
      dsimp only
      rw [if_neg (by omega), h1]
    · intro hnotmem
      rw [hnil]
      dsimp only
      rw [qIndexOf_not_mem modelIDs modelID hnotmem]
      rfl

/-- Witness for C7 at a concrete input: no deformers at all, owning
model M placed at position 1 of the model list. -/
theorem c7_witness :
    (meshClusterJointIDs (fun _ => []) [] "mesh" = [] ∧ "M" ∈ ["R", "M"]) ∧
    buildMeshClusters (fun _ => []) [] ["R", "M"] "mesh" "M" ≠ [] ∧
    buildMeshClusters (fun _ => []) [] ["R", "M"] "mesh" "M"
      = [((["R", "M"] : List String).indexOf "M" : Int)] := by
  refine ⟨⟨rfl, by decide⟩, ?_, ?_⟩
  · exact (c7_mesh_cluster_fallback (fun _ => []) [] ["R", "M"] "mesh" "M").1
  · exact ((c7_mesh_cluster_fallback (fun _ => []) [] ["R", "M"] "mesh" "M").2 rfl).1 (by decide)

lemma buildJointIndices_append (l : List String) (x : String) :
    buildJointIndices (l ++ [x])
      = Function.update (buildJointIndices l) x (some (l.length + 1)) := by
  rw [buildJointIndices, buildJointIndices, List.enum_append, List.foldl_append]
  rfl

/-- Claim C10: after joint construction, the jointIndices table maps
the name of the joint appended at position i to i + 1 (one-based),
and when two models share a name the later joint's one-based
position overwrites the earlier entry, so the stored value belongs
to the last occurrence of the name. -/
theorem c10_joint_indices_one_based (names : List String) :
    ∀ i (hi : i < names.length),
      (∀ k (hk : k < names.length), i < k → names[k] ≠ names[i]) →
      buildJointIndices names names[i] = some (i + 1) := by
  induction names using List.reverseRecOn with
  | nil => intro i hi; simp at hi
  | append_singleton l x ih =>
      intro i hi hlast
      rw [buildJointIndices_append]
      by_cases hieq : i = l.length
      · subst hieq
        have hx : (l ++ [x])[l.length] = x := by
          rw [List.getElem_append_right (le_refl _)]
          simp
        rw [hx, Function.update_same]
      · have hilt : i < l.length := by
          rw [List.length_append, List.length_singleton] at hi
          omega
        have hval : (l ++ [x])[i] = l[i] := List.getElem_append_left hilt
        rw [hval]
        have hne : l[i] ≠ x := by
          have hk := hlast l.length (by simp) (by omega)
          have hkx : (l ++ [x])[l.length] = x := by
            rw [List.getElem_append_right (le_refl _)]
            simp
          rw [hkx, hval] at hk
          exact fun hc => hk hc.symm
        rw [Function.update_noteq hne]
        refine ih i hilt ?_
        intro k hk hik
        have hk2 : k < (l ++ [x]).length := by
          rw [List.length_append, List.length_singleton]
          omega
        have := hlast k hk2 hik
        rw [List.getElem_append_left hk, List.getElem_append_left hilt] at this
        exact this

/-- Witness for C10 at a concrete input with a duplicated name: the
joint list A, B, A maps A to 3 (the later A wins) and B to 2. -/
theorem c10_witness :
    (∀ k (hk : k < (["A", "B", "A"] : List String).length), 2 < k →
      (["A", "B", "A"] : List String)[k] ≠ (["A", "B", "A"] : List String)[2]) ∧
    buildJointIndices ["A", "B", "A"] (["A", "B", "A"] : List String)[2] = some 3 :=
  ⟨by intro k hk h2; simp only [List.length_cons, List.length_nil] at hk; omega,
   c10_joint_indices_one_based ["A", "B", "A"] 2 (by decide)
     (by intro k hk h2; simp only [List.length_cons, List.length_nil] at hk; omega)⟩

/-! ## Helper lemmas: free lineage (claim C5) -/

lemma lineageWalk_succ (joints : List JointE) (fuel : Nat) (index : Int)
    (acc : List Int) (lastFree : Int) :
    lineageWalk joints (fuel + 1) index acc lastFree
      = if index = -1 then (acc, lastFree)
        else lineageWalk joints fuel (joints.getD index.toNat ⟨-1, false⟩).parentIndex
            (acc ++ [index])
            (if (joints.getD index.toNat ⟨-1, false⟩).isFree then (acc.length : Int)
             else lastFree) := rfl

lemma ancChain_succ (joints : List JointE) (fuel : Nat) (index : Int) :
    ancChain joints (fuel + 1) index
      = if index = -1 then []
        else index :: ancChain joints fuel (joints.getD index.toNat ⟨-1, false⟩).parentIndex :=
  rfl

lemma lineageWalk_eq (joints : List JointE)
    (hpar : ∀ i, i < joints.length →
      -1 ≤ (joints.getD i ⟨-1, false⟩).parentIndex ∧
      (joints.getD i ⟨-1, false⟩).parentIndex < (i : Int)) :
    ∀ (fuel : Nat) (index : Int) (acc : List Int) (lastFree : Int),
      -1 ≤ index → index < (joints.length : Int) → index < (fuel : Int) →
      lineageWalk joints fuel index acc lastFree
        = (acc ++ ancChain joints fuel index,
           lastFreeVal acc.length lastFree
             ((ancChain joints fuel index).map
               (fun e => (joints.getD e.toNat ⟨-1, false⟩).isFree))) := by
  intro fuel
  induction fuel with
  | zero =>
      intro index acc lastFree h1 h2 h3
      rw [show ancChain joints 0 index = [] from rfl, List.append_nil, List.map_nil]
      rfl
  | succ f ih =>
      intro index acc lastFree h1 h2 h3
      rw [lineageWalk_succ, ancChain_succ]
      by_cases hidx : index = -1
      · rw [if_pos hidx, if_pos hidx, List.append_nil, List.map_nil]
        rfl
      · rw [if_neg hidx, if_neg hidx]
        have hlt : index.toNat < joints.length := by omega
        obtain ⟨hp1, hp2⟩ := hpar index.toNat hlt
        have hcast : ((index.toNat : Nat) : Int) = index := by omega
        rw [hcast] at hp2
        rw [ih (joints.getD index.toNat ⟨-1, false⟩).parentIndex (acc ++ [index])
          (if (joints.getD index.toNat ⟨-1, false⟩).isFree then (acc.length : Int) else lastFree)
          hp1 (by omega) (by push_cast at h3 ⊢; omega)]
        rw [List.append_assoc, List.length_append]
        rfl

lemma ancChain_range (joints : List JointE)
    (hpar : ∀ i, i < joints.length →
      -1 ≤ (joints.getD i ⟨-1, false⟩).parentIndex ∧
      (joints.getD i ⟨-1, false⟩).parentIndex < (i : Int)) :
    ∀ (fuel : Nat) (index : Int), -1 ≤ index → index < (joints.length : Int) →
      ∀ e ∈ ancChain joints fuel index, 0 ≤ e ∧ e < (joints.length : Int) := by
  intro fuel
  induction fuel with
  | zero =>
      intro index h1 h2 e he
      rw [show ancChain joints 0 index = [] from rfl] at he
      exact absurd he (List.not_mem_nil e)
  | succ f ih =>
      intro index h1 h2 e he
      rw [ancChain_succ] at he
      by_cases hidx : index = -1
      · rw [if_pos hidx] at he
        exact absurd he (List.not_mem_nil e)
      · rw [if_neg hidx] at he
        rcases List.mem_cons.mp he with heq | hrest
        · subst heq
          exact ⟨by omega, h2⟩
        · have hlt : index.toNat < joints.length := by omega
          obtain ⟨hp1, hp2⟩ := hpar index.toNat hlt
          exact ih (joints.getD index.toNat ⟨-1, false⟩).parentIndex hp1 (by omega) e hrest

lemma lastFreeVal_keepLen :
    ∀ (flags : List Bool) (base : Nat) (lastFree : Int),
      lastFreeVal base lastFree flags
        = if keepLen flags = 0 then lastFree else (base : Int) + (keepLen flags : Int) - 1 := by
  intro flags
  induction flags with
  | nil =>
      intro base lf
      rw [show keepLen [] = 0 from rfl, if_pos rfl]
      rfl
  | cons b rest ih =>
      intro base lf
      rw [show lastFreeVal base lf (b :: rest)
            = lastFreeVal (base + 1) (if b then (base : Int) else lf) rest from rfl]
      rw [ih]
      rw [show keepLen (b :: rest)
            = (if keepLen rest = 0 then (if b then 1 else 0) else keepLen rest + 1) from rfl]
      by_cases h0 : keepLen rest = 0
      · rw [if_pos h0, if_pos h0]
        cases b
        · rw [if_neg (Bool.false_ne_true), if_neg (Bool.false_ne_true), if_pos rfl]
        · rw [if_pos rfl, if_pos rfl, if_neg (by omega : ¬(1 : Nat) = 0)]
          push_cast
          ring
      · rw [if_neg h0, if_neg h0, if_neg (by omega : ¬keepLen rest + 1 = 0)]
        push_cast
        ring

/-- Claim C5 (corrected): for every joint whose stored parent indices
satisfy the depth-first invariant (each existing joint's parentIndex is
-1 or a strictly smaller index, and the new joint's parentIndex is -1
or an existing index), freeLineage is the chain consisting of the joint
itself followed by every ancestor reached by walking parent indices,
truncated immediately after its last entry flagged free — where the
joint itself counts: if the joint is free but no ancestor is, only the
joint survives, and if NO entry of the chain is free (joint included)
the resulting freeLineage is EMPTY, not the joint alone. -/
theorem c5_free_lineage (joints : List JointE) (isFree : Bool) (parentIndex : Int)
    (hpar : ∀ i, i < joints.length →
      -1 ≤ (joints.getD i ⟨-1, false⟩).parentIndex ∧
      (joints.getD i ⟨-1, false⟩).parentIndex < (i : Int))
    (hstart : -1 ≤ parentIndex ∧ parentIndex < (joints.length : Int)) :
    computeFreeLineage joints isFree parentIndex
      = ((joints.length : Int) :: ancChain joints (joints.length + 1) parentIndex).take
          (keepLen (((joints.length : Int)
              :: ancChain joints (joints.length + 1) parentIndex).map
            (freeFlagAt joints isFree))) := by
  obtain ⟨hs1, hs2⟩ := hstart
  have hfuel : parentIndex < ((joints.length + 1 : Nat) : Int) := by push_cast; omega
  have hw := lineageWalk_eq joints hpar (joints.length + 1) parentIndex
    [(joints.length : Int)] (if isFree then 0 else -1) hs1 hs2 hfuel
  have hrange := ancChain_range joints hpar (joints.length + 1) parentIndex hs1 hs2
  have hmap : (ancChain joints (joints.length + 1) parentIndex).map (freeFlagAt joints isFree)
      = (ancChain joints (joints.length + 1) parentIndex).map
          (fun e => (joints.getD e.toNat ⟨-1, false⟩).isFree) := by
    apply List.map_congr_left
    intro e he
    obtain ⟨he1, he2⟩ := hrange e he
    rw [freeFlagAt, if_neg (by omega : ¬e = (joints.length : Int))]
  have hhead : freeFlagAt joints isFree (joints.length : Int) = isFree := by
    rw [freeFlagAt, if_pos rfl]
  simp only [computeFreeLineage]
  rw [hw]
  dsimp only
  rw [lastFreeVal_keepLen, List.map_cons, hhead, hmap]
  rw [show keepLen (isFree
        :: (ancChain joints (joints.length + 1) parentIndex).map
            (fun e => (joints.getD e.toNat ⟨-1, false⟩).isFree))
      = (if keepLen ((ancChain joints (joints.length + 1) parentIndex).map
            (fun e => (joints.getD e.toNat ⟨-1, false⟩).isFree)) = 0
         then (if isFree then 1 else 0)
         else keepLen ((ancChain joints (joints.length + 1) parentIndex).map
            (fun e => (joints.getD e.toNat ⟨-1, false⟩).isFree)) + 1) from rfl]
  by_cases h0 : keepLen ((ancChain joints (joints.length + 1) parentIndex).map
      (fun e => (joints.getD e.toNat ⟨-1, false⟩).isFree)) = 0
  · rw [if_pos h0, if_pos h0]
    cases isFree
    · rw [if_neg (Bool.false_ne_true), if_neg (Bool.false_ne_true)]
      rw [show ((-1 : Int) + 1).toNat = 0 from rfl]
      rw [List.take_zero, List.take_zero]
    · rw [if_pos rfl, if_pos rfl]
      rw [show ((0 : Int) + 1).toNat = 1 from rfl]
      rfl
  · rw [if_neg h0, if_neg h0]
    rw [show (([(joints.length : Int)] : List Int).length : Int) = (1 : Int) from rfl]
    have htn : ((1 : Int) + (keepLen ((ancChain joints (joints.length + 1) parentIndex).map
        (fun e => (joints.getD e.toNat ⟨-1, false⟩).isFree)) : Int) - 1 + 1).toNat
        = keepLen ((ancChain joints (joints.length + 1) parentIndex).map
            (fun e => (joints.getD e.toNat ⟨-1, false⟩).isFree)) + 1 := by omega
    rw [htn]
    rfl

/-- Witness for C5 at a concrete input: one existing free root joint,
a non-free joint appended as its child; the lineage keeps both. -/
theorem c5_witness :
    computeFreeLineage [⟨-1, true⟩] false 0
      = (((1 : Int) :: ancChain [⟨-1, true⟩] 2 0).take
          (keepLen (((1 : Int) :: ancChain [⟨-1, true⟩] 2 0).map
            (freeFlagAt [⟨-1, true⟩] false)))) ∧
    computeFreeLineage [⟨-1, true⟩] false 0 = [1, 0] :=
  ⟨c5_free_lineage [⟨-1, true⟩] false 0 (by decide) (by decide), by decide⟩

/-- Counterexample to the literal C5 claim: when neither the appended
joint nor any ancestor is free, the code removes every entry of
freeLineage (remove(0, size)), leaving it EMPTY — it does not keep the
joint itself as the claim states. -/
theorem c5_counterexample :
    computeFreeLineage [] false (-1) = [] ∧
    computeFreeLineage [] false (-1) ≠ [(0 : Int)] := by decide

/-! ## Claim C9 -/

/-- Claim C9: the no-internal-fatal-error promise fails in the code.
Every recognized dispatch branch begins with unguarded property reads
(Geometry at(2), Material at(1) and its id at(0), Deformer last(),
NodeAttribute and AnimationCurve id at(0), Connections at(0) and
at(1)/at(2), GlobalSettings P at(0), FBXHeaderExtension Author at(0)),
and QVariantList::at / last abort on an out-of-range index, so
recognized nodes with too-short property lists do NOT yield a
degenerate Geometry: the modelled dispatch aborts on each listed
input.  The claim's other half is real: a tree holding only
unrecognized names is silently ignored and returns a value. -/
theorem c9_unguarded_reads_abort :
    sceneDispatch (.mk "root" [] [.mk "Objects" [] [.mk "Geometry" [] []]])
      = .error "property index out of range" ∧
    sceneDispatch (.mk "root" [] [.mk "Objects" [] [.mk "Material" [] []]])
      = .error "property index out of range" ∧
    sceneDispatch (.mk "root" [] [.mk "Objects" [] [.mk "Deformer" [] []]])
      = .error "last of empty property list" ∧
    sceneDispatch (.mk "root" [] [.mk "Objects" [] [.mk "NodeAttribute" [] []]])
      = .error "property index out of range" ∧
    sceneDispatch (.mk "root" [] [.mk "Objects" [] [.mk "AnimationCurve" [] []]])
      = .error "property index out of range" ∧
    sceneDispatch (.mk "root" [] [.mk "Connections" [] [.mk "C" [] []]])
      = .error "property index out of range" ∧
    sceneDispatch (.mk "root" []
        [.mk "GlobalSettings" [] [.mk "Properties70" [] [.mk "P" [] []]]])
      = .error "property index out of range" ∧
    sceneDispatch (.mk "root" []
        [.mk "FBXHeaderExtension" []
          [.mk "SceneInfo" [] [.mk "MetaData" [] [.mk "Author" [] []]]]])
      = .error "property index out of range" ∧
    sceneDispatch (.mk "root" []
        [.mk "Objects" [] [.mk "Mystery" [PropE.str "x"] []], .mk "Unknown" [] []])
      = .ok emptyObjectsAcc := by
  refine ⟨rfl, rfl, rfl, rfl, rfl, rfl, rfl, rfl, rfl⟩

end FBX
